import Mathlib

/-!
Verification of the ClawTriage duplicate-detection engine.

This file gives a shallow embedding, in Lean 4, of the algorithmic core of the
ClawTriage repository (channel classification, diff canonicalization,
MinHash/LSH, pairwise scoring, candidate ranking) and proves or refutes the
frozen claims about it.

Modelling conventions:
- JavaScript numbers carrying scores, weights and thresholds are modelled as
  rationals; the scorer only adds, multiplies, compares, and takes min of
  configuration-sized values, so the rational model is exact up to floating
  point rounding, which no claim depends on.
- 32-bit unsigned integer arithmetic (FNV-1a, the MinHash mixer) is modelled
  on naturals with explicit reduction mod 2 ^ 32.
- Cryptographic digests from node:crypto (SHA-256, SHA-1) are modelled by a
  deterministic stand-in digest rendered in hexadecimal; the development only
  uses determinism (equal input gives equal digest) and the shape of the
  output (hexadecimal characters), never collision resistance, so claims
  about hash distinctness are settled at the canonical-text level.
- JavaScript falsy checks on optional patch strings (absent, null, or empty)
  are modelled on `Option String` with an explicit emptiness test.
- `Array.prototype.sort` with a comparator (stable in ECMAScript) is modelled
  by `List.insertionSort`, a stable sort, and `localeCompare` by the
  lexicographic order on strings.
-/

namespace ClawTriage

/-! ## Scorer data model, from packages/core src (types.ts) -/

/-- The `TriageCategory` union type of types.ts. -/
inductive TriageCategory where
  | SAME_CHANGE
  | SAME_FEATURE
  | COMPETING_IMPLEMENTATION
  | RELATED
  | NOT_RELATED
  | UNCERTAIN
deriving DecidableEq, Repr

/-- The eight per-pair similarity values of `PairScores` in types.ts. -/
structure PairScores where
  prodDiffExact : ℚ
  prodMinhash : ℚ
  prodFiles : ℚ
  prodExports : ℚ
  prodSymbols : ℚ
  prodImports : ℚ
  testsIntent : ℚ
  docsStruct : ℚ
deriving DecidableEq, Repr

structure SameChangeThresholds where
  prod_minhash_threshold : ℚ
  prod_files_overlap_threshold : ℚ
deriving DecidableEq, Repr

structure SameFeatureThresholds where
  prod_score_threshold : ℚ
  supporting_signal_min : ℚ
deriving DecidableEq, Repr

structure CompetingImplThresholds where
  tests_intent_threshold : ℚ
  prod_score_max : ℚ
deriving DecidableEq, Repr

structure SimilarityThresholds where
  same_change : SameChangeThresholds
  same_feature : SameFeatureThresholds
  competing_impl : CompetingImplThresholds
deriving DecidableEq, Repr

structure Caps where
  test_score_cap : ℚ
  doc_score_cap : ℚ
deriving DecidableEq, Repr

structure ProductionWeights where
  minhash : ℚ
  exports : ℚ
  symbols : ℚ
  files : ℚ
  imports : ℚ
deriving DecidableEq, Repr

structure TestsWeights where
  intent : ℚ
deriving DecidableEq, Repr

/-- `weights.docs` of the thresholds config; the source field is named
`structure`, which is a Lean keyword, so it is rendered `structureWeight`. -/
structure DocsWeights where
  structureWeight : ℚ
deriving DecidableEq, Repr

structure CandidateLimits where
  max_candidates_from_lsh : ℕ
  max_candidates_final : ℕ
  recent_pr_window_days : ℕ
deriving DecidableEq, Repr

structure Weights where
  production : ProductionWeights
  tests : TestsWeights
  docs : DocsWeights
deriving DecidableEq, Repr

/-- The scorer-relevant slice of the `Thresholds` structure of types.ts.
The `actions` booleans and the optional `llm` block are not consumed by any
code modelled here and are omitted. -/
structure Thresholds where
  version : ℕ
  candidates : CandidateLimits
  similarity : SimilarityThresholds
  caps : Caps
  weights : Weights
deriving DecidableEq, Repr

/-- Result record of `scoreCandidate` (the `ScoredCategory` of types.ts). -/
structure ScoredCategory where
  category : TriageCategory
  finalScore : ℚ
  prodScore : ℚ
deriving DecidableEq, Repr

/-! ## Scorer, from the scoring source file (clamp01, computeProdScore,
scoreCandidate, overlap, jaccardFromArrays) -/

/-- `clamp01` of the scoring module. -/
def clamp01 (value : ℚ) : ℚ :=
  if value < 0 then 0
  else if value > 1 then 1
  else value

/-- `computeProdScore`: weighted sum of the five production signals,
clamped to [0,1]. -/
def computeProdScore (scores : PairScores) (thresholds : Thresholds) : ℚ :=
  let w := thresholds.weights.production
  clamp01
    (w.minhash * scores.prodMinhash +
      w.exports * scores.prodExports +
      w.symbols * scores.prodSymbols +
      w.files * scores.prodFiles +
      w.imports * scores.prodImports)

/-- The `testContribution` local of `scoreCandidate`. -/
def testContribution (scores : PairScores) (thresholds : Thresholds) : ℚ :=
  min (thresholds.weights.tests.intent * scores.testsIntent)
    thresholds.caps.test_score_cap

/-- The `docContribution` local of `scoreCandidate`. -/
def docContribution (scores : PairScores) (thresholds : Thresholds) : ℚ :=
  min (thresholds.weights.docs.structureWeight * scores.docsStruct)
    thresholds.caps.doc_score_cap

/-- `scoreCandidate`: aggregates the eight signals and assigns a category by
the first matching rule. -/
def scoreCandidate (scores : PairScores) (thresholds : Thresholds)
    (reviewThreshold : ℚ) : ScoredCategory :=
  let prodScore := computeProdScore scores thresholds
  let finalScore :=
    clamp01 (prodScore + testContribution scores thresholds +
      docContribution scores thresholds)
  if scores.prodDiffExact = 1 ∨
      (scores.prodMinhash ≥ thresholds.similarity.same_change.prod_minhash_threshold ∧
        scores.prodFiles ≥ thresholds.similarity.same_change.prod_files_overlap_threshold) then
    { category := .SAME_CHANGE, finalScore := finalScore, prodScore := prodScore }
  else if prodScore ≥ thresholds.similarity.same_feature.prod_score_threshold ∧
      max (max scores.testsIntent scores.docsStruct) scores.prodMinhash ≥
        thresholds.similarity.same_feature.supporting_signal_min then
    { category := .SAME_FEATURE, finalScore := finalScore, prodScore := prodScore }
  else if scores.testsIntent ≥ thresholds.similarity.competing_impl.tests_intent_threshold ∧
      prodScore ≤ thresholds.similarity.competing_impl.prod_score_max then
    { category := .COMPETING_IMPLEMENTATION, finalScore := finalScore, prodScore := prodScore }
  else if finalScore ≥ reviewThreshold then
    { category := .RELATED, finalScore := finalScore, prodScore := prodScore }
  else
    { category := .NOT_RELATED, finalScore := finalScore, prodScore := prodScore }

/-- `overlap` of the scoring module: entries of `top` that also occur in
`other` (the JS code materializes `other` as a Set first, which only affects
lookup cost, not membership). -/
def overlap (top other : List String) : List String :=
  top.filter (fun entry => entry ∈ other)

/-- `jaccardFromArrays` of the scoring module: deduplicates both arrays into
sets, then takes intersection size over union size, with the two empty-set
special cases. -/
def jaccardFromArrays (a b : List String) : ℚ :=
  let aSet := a.toFinset
  let bSet := b.toFinset
  if aSet.card = 0 ∧ bSet.card = 0 then 1
  else if aSet.card = 0 ∨ bSet.card = 0 then 0
  else
    let intersection := (aSet ∩ bSet).card
    let union := aSet.card + bSet.card - intersection
    if union = 0 then 0 else (intersection : ℚ) / (union : ℚ)

/-- `jaccardSimilarity` of the minhash module (same computation on sets). -/
def jaccardSimilarity (a b : Finset String) : ℚ :=
  if a.card = 0 ∧ b.card = 0 then 1
  else if a.card = 0 ∨ b.card = 0 then 0
  else
    let intersection := (a ∩ b).card
    let union := a.card + b.card - intersection
    if union = 0 then 0 else (intersection : ℚ) / (union : ℚ)

/-! ## String primitives

JavaScript string operations used by the engine (`split` with a one-character
separator, `startsWith`/`endsWith`, `slice`, `trim`, `Array.prototype.join`,
`localeCompare`) are modelled by structurally recursive functions over the
character list of the string, so every definition in this file evaluates
inside the kernel. -/

/-- Accumulator loop of `splitOnChar`. -/
def splitOnCharGo (sep : Char) : List Char → List Char → List String
  | acc, [] => [⟨acc.reverse⟩]
  | acc, c :: cs =>
    if c = sep then ⟨acc.reverse⟩ :: splitOnCharGo sep [] cs
    else splitOnCharGo sep (c :: acc) cs

/-- `s.split(sep)` for a one-character separator (the only form the engine
uses: `"\n"` for patches, `"/"` for paths). -/
def splitOnChar (sep : Char) (s : String) : List String :=
  splitOnCharGo sep [] s.data

/-- Boolean prefix test on character lists. -/
def isPrefixList : List Char → List Char → Bool
  | [], _ => true
  | _ :: _, [] => false
  | p :: ps, c :: cs => p = c && isPrefixList ps cs

/-- `s.startsWith(p)`. -/
def startsWithStr (s p : String) : Bool :=
  isPrefixList p.data s.data

/-- `s.endsWith(p)`. -/
def endsWithStr (s p : String) : Bool :=
  isPrefixList p.data.reverse s.data.reverse

/-- `s.slice(n)`. -/
def dropChars (s : String) (n : ℕ) : String :=
  ⟨s.data.drop n⟩

/-- `parts.join(sep)` (also modelling `String.intercalate`). -/
def joinSep (sep : String) : List String → String
  | [] => ""
  | [a] => a
  | a :: rest => a ++ sep ++ joinSep sep rest

/-- `s.trim()`. -/
def trimStr (s : String) : String :=
  ⟨((s.data.dropWhile Char.isWhitespace).reverse.dropWhile Char.isWhitespace).reverse⟩

/-- Lexicographic comparison of character lists by code point, the model of
`localeCompare`-based sorting. -/
def listLe : List Char → List Char → Bool
  | [], _ => true
  | _ :: _, [] => false
  | a :: as, b :: bs => if a = b then listLe as bs else decide (a < b)

/-- String comparison `a.localeCompare(b) ≤ 0`, modelled by code-point
lexicographic order. -/
def strLe (a b : String) : Bool :=
  listLe a.data b.data

/-! ## Hexadecimal digest stand-ins for node:crypto hashes -/

/-- The sixteen hexadecimal digit characters. -/
def hexDigits : List Char :=
  "0123456789abcdef".data

/-- Hexadecimal digit character for `n % 16`. -/
def hexChar (n : ℕ) : Char :=
  hexDigits.getD (n % 16) '0'

/-- FNV-1a 32-bit hash over the characters of a string, as in the minhash
module (`fnv1a32`). JavaScript iterates UTF-16 code units; the model uses
Unicode scalar values, which agree on the basic multilingual plane. -/
def fnv1a32 (input : String) : ℕ :=
  input.data.foldl (fun hash c => ((hash ^^^ c.toNat) * 0x01000193) % 2 ^ 32) 0x811c9dc5

/-- Render a natural as sixteen hexadecimal characters (most significant
first). -/
def toHex16 (n : ℕ) : String :=
  ⟨(List.range 16).map fun i => hexChar (n / 16 ^ (15 - i))⟩

/-- Deterministic stand-in for `sha256Hex` of diff.ts (a hex-rendered SHA-256
digest from node:crypto). Only determinism of the digest — equal canonical
text gives an equal hash — is used by the development; distinctness of hashes
is settled at the canonical-text level. -/
def sha256Hex (input : String) : String :=
  toHex16 (fnv1a32 input)

/-! ## Canonicalizer, from packages/core/src/diff.ts -/

/-- `PatchInput` of diff.ts: a changed file path with an optional unified
diff patch. -/
structure PatchInput where
  path : String
  patch : Option String
deriving DecidableEq, Repr

/-- `METADATA_LINE_PREFIXES` of diff.ts. -/
def METADATA_LINE_PREFIXES : List String :=
  ["diff --git", "index ", "--- ", "+++ ", "@@ ", "@@"]

/-- `isMetadataLine` of diff.ts. -/
def isMetadataLine (line : String) : Bool :=
  METADATA_LINE_PREFIXES.any fun prefix_ => startsWithStr line prefix_

/-- The "no newline at end of file" marker test of
`extractAddedRemovedLines`. -/
def isNoNewlineMarker (line : String) : Bool :=
  startsWithStr line "\\ No newline at end of file"

/-- `extractAddedRemovedLines` of diff.ts: split the patch on newlines, drop
the no-newline markers and diff metadata lines, keep lines starting with `+`
or `-` (marker included). -/
def extractAddedRemovedLines (patch : String) : List String :=
  (splitOnChar '\n' patch).filter fun line =>
    !(isNoNewlineMarker line || isMetadataLine line) &&
      (startsWithStr line "+" || startsWithStr line "-")

/-- The trailing-whitespace strip `line.replace(/\s+$/g, "")` applied to each
kept line by `canonicalizeProductionDiff`. -/
def stripTrailing (s : String) : String :=
  ⟨(s.data.reverse.dropWhile Char.isWhitespace).reverse⟩

/-- Path comparison used by `files.sort((a, b) => a.path.localeCompare(b.path))`,
modelled by the lexicographic order on strings. -/
def pathLe (a b : PatchInput) : Prop :=
  strLe a.path b.path = true

instance : DecidableRel pathLe := fun a b => by
  unfold pathLe; infer_instance

/-- The stable comparator sort of `canonicalizeProductionDiff`
(`[...files].sort(...)`), modelled by stable insertion sort. -/
def sortByPath (files : List PatchInput) : List PatchInput :=
  List.insertionSort pathLe files

/-- The added/removed section lines contributed by a file's optional patch
(`if (!file.patch) continue` — the JS falsy check — then every
added/removed line with trailing whitespace stripped). -/
def sectionTail : Option String → List String
  | none => []
  | some p => if p = "" then [] else (extractAddedRemovedLines p).map stripTrailing

/-- The canonical section lines contributed by one file: a `file:<path>`
marker, then the lines of its patch. -/
def sectionOf (file : PatchInput) : List String :=
  ("file:" ++ file.path) :: sectionTail file.patch

/-- `sections.join("\n")`. -/
def joinNl : List String → String
  | [] => ""
  | [a] => a
  | a :: rest => a ++ "\n" ++ joinNl rest

/-- `canonicalizeProductionDiff` of diff.ts: sort the files by path, emit the
section lines of each file in order, join with newlines. -/
def canonicalizeProductionDiff (files : List PatchInput) : String :=
  joinNl ((sortByPath files).map sectionOf).flatten

/-- Result of `buildCanonicalDiffHash`. -/
structure CanonicalDiff where
  canonicalText : String
  hash : String
deriving DecidableEq, Repr

/-- `buildCanonicalDiffHash` of diff.ts. -/
def buildCanonicalDiffHash (files : List PatchInput) : CanonicalDiff :=
  let canonicalText := canonicalizeProductionDiff files
  { canonicalText := canonicalText, hash := sha256Hex canonicalText }

/-! ## MinHash and LSH, from the minhash module and constants.ts -/

/-- `LSH_BAND_SIZE` of constants.ts. -/
def LSH_BAND_SIZE : ℕ := 8

/-- `MINHASH_SIZE` of constants.ts. -/
def MINHASH_SIZE : ℕ := 128

/-- `UINT32_MAX` of the minhash module. -/
def UINT32_MAX : ℕ := 0xffffffff

/-- `mix32` of the minhash module: a 32-bit finalizer (xor-shift and
`Math.imul` steps); the input is first reduced mod 2 ^ 32 (`value >>> 0`). -/
def mix32 (value : ℕ) : ℕ :=
  let x0 := value % 2 ^ 32
  let x1 := x0 ^^^ (x0 >>> 16)
  let x2 := (x1 * 0x85ebca6b) % 2 ^ 32
  let x3 := x2 ^^^ (x2 >>> 13)
  let x4 := (x3 * 0xc2b2ae35) % 2 ^ 32
  x4 ^^^ (x4 >>> 16)

/-- The seed-generation loop of `buildSeeds`: sequential state updates
`state = mix32(state + i * 0x85ebca6b)`, one seed per slot. -/
def buildSeedsGo : ℕ → ℕ → ℕ → List ℕ
  | _, _, 0 => []
  | state, i, n + 1 =>
    let s := mix32 (state + i * 0x85ebca6b)
    s :: buildSeedsGo s (i + 1) n

/-- `buildSeeds` of the minhash module, starting from the fixed constant
`0x9e3779b9`. -/
def buildSeeds (count : ℕ) : List ℕ :=
  buildSeedsGo 0x9e3779b9 0 count

/-- `MINHASH_SEEDS`, the module-level seed table. -/
def MINHASH_SEEDS : List ℕ :=
  buildSeeds MINHASH_SIZE

/-- `computeMinhash` of the minhash module: the signature starts filled with
`UINT32_MAX`; an empty shingle set returns that fill unchanged; otherwise
each slot holds the minimum of `mix32(fnv1a32(shingle) ^ seed)` over all
shingles. -/
def computeMinhash (shingles : Finset String) (numHashes : ℕ := MINHASH_SIZE) : List ℕ :=
  if shingles.card = 0 then
    List.replicate numHashes UINT32_MAX
  else
    let seeds := if numHashes = MINHASH_SIZE then MINHASH_SEEDS else buildSeeds numHashes
    seeds.map fun seed =>
      shingles.fold min UINT32_MAX fun shingle => mix32 (fnv1a32 shingle ^^^ seed)

/-- `minhashSimilarity` of the minhash module: fraction of matching slots
over the common length. -/
def minhashSimilarity (a b : List ℕ) : ℚ :=
  let size := min a.length b.length
  if size = 0 then 0
  else
    let matchCount := ((a.zip b).filter fun p => p.1 == p.2).length
    (matchCount : ℚ) / (size : ℚ)

/-- Stand-in for `hashBand` of the minhash module (a SHA-1 hex digest of the
band values joined with ":" truncated to 16 characters). Only determinism
and the hexadecimal (colon-free) output shape are used. -/
def hashBand (values : List ℕ) : String :=
  toHex16 (fnv1a32 (joinSep ":" (values.map Nat.repr)))

/-- `lshBucketIds` of the minhash module: throws unless the signature length
is a multiple of the band size, otherwise yields one bucket id per band,
prefixed with the band index. A zero band size also throws in JavaScript
(`length % 0` is `NaN`, which fails the `!== 0` check), hence the first
disjunct. -/
def lshBucketIds (signature : List ℕ) (bandSize : ℕ := LSH_BAND_SIZE) :
    Except String (List String) :=
  if bandSize = 0 ∨ signature.length % bandSize ≠ 0 then
    .error ("Signature length " ++ Nat.repr signature.length ++
      " must be divisible by band size " ++ Nat.repr bandSize)
  else
    .ok ((List.range (signature.length / bandSize)).map fun band =>
      Nat.repr band ++ ":" ++ hashBand ((signature.drop (band * bandSize)).take bandSize))

/-! ## Tokenizer and shingler, from the minhash module
(normalizeDiffLine, tokenizeLine, buildTokenShingles)

The JavaScript source tokenizes with a global regular expression
(`TOKEN_REGEX`). The model implements the same scan: at each position the
alternatives are tried in the order they appear in the pattern (identifier,
double/single/backtick-quoted string, digit run, two-character operator,
single-character operator with optional `=`); on failure the scanner
advances one character, exactly like `String.prototype.match` with a global
regex. -/

/-- The double-quote character (written by code point to keep character
literals unambiguous). -/
def dquoteChar : Char := Char.ofNat 34

/-- The single-quote character. -/
def squoteChar : Char := Char.ofNat 39

/-- The backtick character. -/
def btickChar : Char := Char.ofNat 96

/-- The backslash character. -/
def bslashChar : Char := Char.ofNat 92

/-- The left curly bracket character. -/
def lbraceChar : Char := Char.ofNat 123

/-- The right curly bracket character. -/
def rbraceChar : Char := Char.ofNat 125

/-- `[A-Za-z_$]`, the identifier start class of `TOKEN_REGEX`. -/
def isIdentStart (c : Char) : Bool :=
  c.isAlpha || c = '_' || c = '$'

/-- `[A-Za-z0-9_$]`, the identifier continuation class of `TOKEN_REGEX`. -/
def isIdentChar (c : Char) : Bool :=
  c.isAlphanum || c = '_' || c = '$'

/-- JavaScript `\w` (`[A-Za-z0-9_]`), used for the `\b` word boundaries of
`normalizeDiffLine`. -/
def isWordChar (c : Char) : Bool :=
  c.isAlphanum || c = '_'

/-- Dropping a prefix never lengthens a list (helper for termination). -/
theorem dropWhile_length_le (p : α → Bool) (l : List α) :
    (l.dropWhile p).length ≤ l.length := by
  induction l with
  | nil => simp [List.dropWhile]
  | cons a l ih =>
    rw [List.dropWhile]
    split
    · simp only [List.length_cons]; omega
    · simp

/-- Collapse of `\s+` runs to a single space (`.replace(/\s+/g, " ")`). -/
def collapseWs : List Char → List Char
  | [] => []
  | c :: cs =>
    if c.isWhitespace then ' ' :: collapseWs (cs.dropWhile Char.isWhitespace)
    else c :: collapseWs cs
termination_by l => l.length
decreasing_by
  · have := dropWhile_length_le Char.isWhitespace cs
    simp only [List.length_cons]; omega
  · simp only [List.length_cons]; omega

/-- Whether a `\b` word boundary holds between a digit and the following
characters. -/
def wordBoundaryAfter : List Char → Bool
  | [] => true
  | d :: _ => !isWordChar d

/-- The replacement text for a numeric literal. -/
def numTok : List Char := "<NUM>".data

/-- The numeric-literal replacement `.replace(/\b\d+(?:\.\d+)?\b/g, "<NUM>")`
of `normalizeDiffLine`. The `prevWord` flag records whether the previous
character is a word character (no `\b` boundary). When the trailing boundary
fails after the optional fraction, the regex backtracks to the integer part,
whose trailing boundary at the dot always holds. -/
def replaceNumsGo : Bool → List Char → List Char
  | _, [] => []
  | prevWord, c :: cs =>
    if c.isDigit && !prevWord then
      let ds := cs.takeWhile Char.isDigit
      let rest0 := cs.dropWhile Char.isDigit
      match h : rest0 with
      | dot :: r =>
        if dot = '.' && (r.headD ' ').isDigit then
          let rest2 := r.dropWhile Char.isDigit
          if wordBoundaryAfter rest2 then numTok ++ replaceNumsGo true rest2
          else numTok ++ replaceNumsGo true rest0
        else if wordBoundaryAfter rest0 then numTok ++ replaceNumsGo true rest0
        else (c :: ds) ++ replaceNumsGo true rest0
      | [] => numTok
    else c :: replaceNumsGo (isWordChar c) cs
termination_by _ l => l.length
decreasing_by
  · have h0 := dropWhile_length_le Char.isDigit cs
    have h2 := dropWhile_length_le Char.isDigit r
    have h3 : (List.dropWhile Char.isDigit cs).length = r.length + 1 := by
      rw [show List.dropWhile Char.isDigit cs = dot :: r from h]; simp
    simp only [List.length_cons]
    omega
  · have h0 := dropWhile_length_le Char.isDigit cs
    simp only [List.length_cons]; omega
  · have h0 := dropWhile_length_le Char.isDigit cs
    simp only [List.length_cons]; omega
  · have h0 := dropWhile_length_le Char.isDigit cs
    simp only [List.length_cons]; omega
  · simp only [List.length_cons]; omega

/-- `normalizeDiffLine` of the minhash module: trim, collapse whitespace
runs, replace standalone numeric literals with `<NUM>`. -/
def normalizeDiffLine (line : String) : String :=
  ⟨replaceNumsGo false (collapseWs (trimStr line).data)⟩

/-- Body scan of a quoted string literal `(?:\\.|[^q\\])*q`, starting right
after the opening quote; returns the consumed characters (closing quote
included) and the remainder, or fails when the literal is unterminated. -/
def scanStrBody (q : Char) : List Char → Option (List Char × List Char)
  | [] => none
  | c :: cs =>
    if c = q then some ([q], cs)
    else if c = bslashChar then
      match cs with
      | [] => none
      | e :: cs' =>
        match scanStrBody q cs' with
        | some (body, rest) => some (c :: e :: body, rest)
        | none => none
    else
      match scanStrBody q cs with
      | some (body, rest) => some (c :: body, rest)
      | none => none
termination_by l => l.length
decreasing_by
  · simp only [List.length_cons]; omega
  · simp only [List.length_cons]; omega

/-- The two-character operator alternatives `==|!=|<=|>=|=>|&&|\|\|`. -/
def twoCharOps : List (Char × Char) :=
  [('=', '='), ('!', '='), ('<', '='), ('>', '='), ('=', '>'), ('&', '&'), ('|', '|')]

/-- The single-character operator class `[{}()[\].,;:+\-*/%<>]`. -/
def singleOpChars : List Char :=
  [lbraceChar, rbraceChar, '(', ')', '[', ']', '.', ',', ';', ':',
    '+', '-', '*', '/', '%', '<', '>']

/-- One attempted token match of `TOKEN_REGEX` at the current position,
alternatives in pattern order; returns the token characters and the
remainder. -/
def tokenAt : List Char → Option (List Char × List Char)
  | [] => none
  | c :: cs =>
    if isIdentStart c then
      some (c :: cs.takeWhile isIdentChar, cs.dropWhile isIdentChar)
    else if c = dquoteChar || c = squoteChar || c = btickChar then
      match scanStrBody c cs with
      | some (body, rest) => some (c :: body, rest)
      | none => none
    else if c.isDigit then
      some (c :: cs.takeWhile Char.isDigit, cs.dropWhile Char.isDigit)
    else
      match cs with
      | d :: cs' =>
        if twoCharOps.contains (c, d) then some ([c, d], cs')
        else if singleOpChars.contains c then
          if d = '=' then some ([c, d], cs') else some ([c], cs)
        else none
      | [] =>
        if singleOpChars.contains c then some ([c], []) else none

/-- A successful string-literal scan never lengthens the remainder. -/
theorem scanStrBody_length {q : Char} :
    ∀ {cs body rest : List Char}, scanStrBody q cs = some (body, rest) →
      rest.length ≤ cs.length := by
  suffices H : ∀ n (cs : List Char), cs.length ≤ n → ∀ body rest,
      scanStrBody q cs = some (body, rest) → rest.length ≤ cs.length by
    intro cs body rest h
    exact H cs.length cs le_rfl body rest h
  intro n
  induction n with
  | zero =>
    intro cs hlen body rest h
    match cs with
    | [] => rw [scanStrBody.eq_def] at h; exact absurd h (by simp)
    | c :: cs' => simp at hlen
  | succ n ih =>
    intro cs hlen body rest h
    match cs with
    | [] => rw [scanStrBody.eq_def] at h; exact absurd h (by simp)
    | c :: cs' =>
      rw [scanStrBody.eq_def] at h
      simp only at h
      split at h
      · cases h; simp
      · split at h
        · match cs' with
          | [] => exact absurd h (by simp)
          | e :: cs'' =>
            simp only at h
            cases hsb : scanStrBody q cs'' with
            | none => rw [hsb] at h; exact absurd h (by simp)
            | some p =>
              obtain ⟨b', r'⟩ := p
              rw [hsb] at h
              cases h
              have hlen' : cs''.length ≤ n := by
                simp only [List.length_cons] at hlen; omega
              have := ih cs'' hlen' _ _ hsb
              simp only [List.length_cons]
              omega
        · cases hsb : scanStrBody q cs' with
          | none => rw [hsb] at h; exact absurd h (by simp)
          | some p =>
            obtain ⟨b', r'⟩ := p
            rw [hsb] at h
            cases h
            have hlen' : cs'.length ≤ n := by
              simp only [List.length_cons] at hlen; omega
            have := ih cs' hlen' _ _ hsb
            simp only [List.length_cons]
            omega

/-- A successful `tokenAt` leaves a strictly shorter remainder. -/
theorem tokenAt_length :
    ∀ {l tok rest : List Char}, tokenAt l = some (tok, rest) →
      rest.length < l.length := by
  intro l tok rest h
  match l with
  | [] => simp [tokenAt] at h
  | c :: cs =>
    rw [tokenAt.eq_def] at h
    simp only at h
    split at h
    · cases h
      have := dropWhile_length_le isIdentChar cs
      simp only [List.length_cons]; omega
    · split at h
      · split at h
        next body rest' hsb =>
          cases h
          have := scanStrBody_length hsb
          simp only [List.length_cons]; omega
        next => exact absurd h (by simp)
      · split at h
        · cases h
          have := dropWhile_length_le Char.isDigit cs
          simp only [List.length_cons]; omega
        · split at h
          next d cs' =>
            split at h
            · cases h; simp only [List.length_cons]; omega
            · split at h
              · split at h <;> (cases h; simp only [List.length_cons]; omega)
              · exact absurd h (by simp)
          next =>
            split at h
            · cases h; simp
            · exact absurd h (by simp)

/-- The global scan of the line: emit a token where the regex matches,
otherwise advance one character. -/
def scan : List Char → List String
  | [] => []
  | c :: cs =>
    match h : tokenAt (c :: cs) with
    | some (tok, rest) => String.mk tok :: scan rest
    | none => scan cs
termination_by l => l.length
decreasing_by
  · exact tokenAt_length h
  · simp

/-- `tokenizeLine` of the minhash module: normalize, scan, then collapse
numeric tokens to `<NUM>` and quoted-string tokens to `<STR>`. -/
def tokenizeLine (line : String) : List String :=
  (scan (normalizeDiffLine line).data).map fun token =>
    if (token.data.headD ' ').isDigit then "<NUM>"
    else if (startsWithStr token ⟨[dquoteChar]⟩ && endsWithStr token ⟨[dquoteChar]⟩) ||
        (startsWithStr token ⟨[squoteChar]⟩ && endsWithStr token ⟨[squoteChar]⟩) ||
        (startsWithStr token ⟨[btickChar]⟩ && endsWithStr token ⟨[btickChar]⟩) then "<STR>"
    else token

/-- `buildTokenShingles` of the minhash module: the set of all windows of
`size` consecutive tokens joined with U+241F; empty when fewer than `size`
tokens exist. -/
def buildTokenShingles (tokens : List String) (size : ℕ := 5) : Finset String :=
  if tokens.length < size then ∅
  else
    ((List.range (tokens.length - size + 1)).map fun i =>
      joinSep "␟" ((tokens.drop i).take size)).toFinset

/-! ## Channel classifier, from packages/core/src/classification.ts

Glob matching is delegated by the source to the `minimatch` library with
`{ dot: true }`; the model below implements the segment-wise core of that
semantics (a pattern and a path are split on `/`; a `**` segment matches any
number of path segments; within a segment `*` matches any character run and
`?` one character; other characters are literal). The classification rules
exercised in this file only use literal segments, `*` and `**`. -/

/-- The `FileChannel` union type of types.ts. -/
inductive FileChannel where
  | PRODUCTION
  | TESTS
  | DOCS
  | META
deriving DecidableEq, Repr

/-- One glob segment matched against one path segment. Fuel-based recursion
(every step shrinks the pattern-plus-text length, so
`pattern.length + text.length + 1` fuel always suffices); the fuel keeps the
definition structurally recursive and kernel-computable. -/
def segMatchF : ℕ → List Char → List Char → Bool
  | 0, _, _ => false
  | _ + 1, [], [] => true
  | _ + 1, [], _ :: _ => false
  | fuel + 1, p :: ps, s =>
    if p = '*' then
      segMatchF fuel ps s ||
        (match s with
          | [] => false
          | _ :: s' => segMatchF fuel (p :: ps) s')
    else
      match s with
      | [] => false
      | c :: ss => (p = '?' || p = c) && segMatchF fuel ps ss

/-- One glob segment matched against one path segment. -/
def segMatch (p s : List Char) : Bool :=
  segMatchF (p.length + s.length + 1) p s

/-- Pattern segments matched against path segments, with `**` spanning any
number of segments (fuel-based as in `segMatchF`). -/
def mmSegsF : ℕ → List String → List String → Bool
  | 0, _, _ => false
  | _ + 1, [], [] => true
  | _ + 1, [], _ :: _ => false
  | fuel + 1, p :: ps, segs =>
    if p = "**" then
      mmSegsF fuel ps segs ||
        (match segs with
          | [] => false
          | _ :: rest => mmSegsF fuel (p :: ps) rest)
    else
      match segs with
      | [] => false
      | s :: rest => segMatch p.data s.data && mmSegsF fuel ps rest

/-- Model of `minimatch(filePath, pattern, { dot: true })` as used by
`matchesGlob` of classification.ts. -/
def minimatchModel (filePath pattern : String) : Bool :=
  let ps := splitOnChar '/' pattern
  let segs := splitOnChar '/' filePath
  mmSegsF (ps.length + segs.length + 1) ps segs

/-- `matchesGlob` of classification.ts. -/
def matchesGlob (filePath : String) (globs : List String) : Bool :=
  globs.any fun pattern => minimatchModel filePath pattern

/-- `toPosix` of classification.ts; `path.sep` is `/` on the POSIX platforms
the service runs on, so the split/join is on `/`. -/
def toPosix (filePath : String) : String :=
  joinSep "/" (splitOnChar '/' filePath)

/-- One channel entry of `ClassificationRules` (types.ts). -/
structure ClassificationChannelRule where
  path_globs : List String
  extensions : List String
deriving DecidableEq, Repr

structure ClassificationChannels where
  tests : ClassificationChannelRule
  docs : ClassificationChannelRule
  meta : ClassificationChannelRule
  production : ClassificationChannelRule
deriving DecidableEq, Repr

/-- The optional `ast_refinements` block of `ClassificationRules` (types.ts).
It is parsed by config.ts but never consulted by classification.ts. -/
structure AstRefinements where
  test_framework_imports : List String
  test_function_names : List String
deriving DecidableEq, Repr

/-- `ClassificationRules` of types.ts. -/
structure ClassificationRules where
  version : ℕ
  channels : ClassificationChannels
  ast_refinements : Option AstRefinements
deriving DecidableEq, Repr

/-- `classifyPath` of classification.ts: first match wins, in the order
META, TESTS, DOCS, with PRODUCTION as the default. Only the path is
consulted. -/
def classifyPath (filePath : String) (rules : ClassificationRules) : FileChannel :=
  let normalized := toPosix filePath
  if matchesGlob normalized rules.channels.meta.path_globs then .META
  else if matchesGlob normalized rules.channels.tests.path_globs then .TESTS
  else if matchesGlob normalized rules.channels.docs.path_globs then .DOCS
  else .PRODUCTION

/-- `classifyFiles` of classification.ts, restricted to the fields the
classifier reads and the worker's fingerprinting consumes (path and patch):
every file is paired with the channel of its path. -/
def classifyFiles (files : List PatchInput) (rules : ClassificationRules) :
    List (PatchInput × FileChannel) :=
  files.map fun file => (file, classifyPath file.path rules)

/-! ## Worker ingest pipeline, from apps/worker/src/index.ts
(`processIngestPr`), production-channel slice -/

/-- `collectPatchLines` of the worker: all added/removed lines of the files,
with the leading `+`/`-` marker removed (`line.slice(1)`); files without a
patch (the JS falsy check) contribute nothing. -/
def collectPatchLines (files : List PatchInput) : List String :=
  files.flatMap fun file =>
    match file.patch with
    | none => []
    | some p =>
      if p = "" then []
      else (extractAddedRemovedLines p).map fun line => dropChars line 1

/-- `toShinglesFromPatchLines` of the worker: tokenize every line and build
5-token shingles. -/
def toShinglesFromPatchLines (lines : List String) : Finset String :=
  buildTokenShingles (lines.flatMap tokenizeLine) 5

/-- Observable production-channel behaviour of one `processIngestPr` run:
the stored MinHash signature and canonical hash, and which index operations
(exact-hash lookup, LSH bucket lookup and insert) are performed. -/
structure ProductionTrace where
  prodSignature : List ℕ
  canonicalText : String
  canonicalDiffHash : Option String
  exactHashLookup : Bool
  bucketIds : List String
  lshLookup : Bool
  lshInsert : Bool
deriving DecidableEq, Repr

/-- The production-channel fingerprinting and candidate-retrieval decisions
of `processIngestPr` (worker index.ts): the MinHash signature is computed
over the shingles of the production patch lines; the canonical diff hash is
stored only when at least one production patch line exists
(`hasProductionPatchLines`), and the exact-hash candidate lookup runs only
then; LSH bucket ids are computed only for a non-empty shingle set, and both
the LSH bucket lookup (`getLshCandidatePrIds`, which returns early on an
empty bucket list) and the LSH insert (`insertIntoLsh`, likewise) run only
when bucket ids exist. An `lshBucketIds` failure propagates as a failed
run. -/
def analyzeProductionChannel (productionFiles : List PatchInput) :
    Except String ProductionTrace :=
  let productionPatchLines := collectPatchLines productionFiles
  let productionShingles := toShinglesFromPatchLines productionPatchLines
  let prodSignature := computeMinhash productionShingles
  let canonicalDiff := buildCanonicalDiffHash productionFiles
  let hasProductionPatchLines := productionPatchLines.length > 0
  let canonicalDiffHash :=
    if hasProductionPatchLines then some canonicalDiff.hash else none
  match
    (if productionShingles.card > 0 then lshBucketIds prodSignature
     else Except.ok []) with
  | .error e => .error e
  | .ok bucketIds =>
    .ok
      { prodSignature := prodSignature
        canonicalText := canonicalDiff.canonicalText
        canonicalDiffHash := canonicalDiffHash
        exactHashLookup := canonicalDiffHash.isSome
        bucketIds := bucketIds
        lshLookup := !bucketIds.isEmpty
        lshInsert := !bucketIds.isEmpty }

/-- One retrieved candidate as the scoring loop of `processIngestPr` sees
it: its PR id, head SHA, and the eight pair scores computed from its stored
signature — `none` when no stored production signature exists, in which case
the loop skips the candidate (`continue`). -/
structure CandidateInput where
  prId : ℕ
  headSha : String
  pairScores : Option PairScores
deriving DecidableEq, Repr

/-- One persisted candidate edge of an analysis run (rank and category as
inserted by `insertCandidateEdges`). -/
structure CandidateEdge where
  prId : ℕ
  headSha : String
  category : TriageCategory
  finalScore : ℚ
  rank : ℕ
deriving DecidableEq, Repr

/-- The category filter of the scoring loop: only SAME_CHANGE, SAME_FEATURE,
COMPETING_IMPLEMENTATION and RELATED are pushed onto `scored`; anything
else (`NOT_RELATED`) is skipped with `continue`. -/
def keptCategory : TriageCategory → Bool
  | .SAME_CHANGE => true
  | .SAME_FEATURE => true
  | .COMPETING_IMPLEMENTATION => true
  | .RELATED => true
  | _ => false

/-- The scoring loop of `processIngestPr`: skip candidates without a stored
signature, score the rest, and keep only the four persisted categories. -/
def scoreCandidates (cands : List CandidateInput) (thresholds : Thresholds)
    (reviewThreshold : ℚ) : List CandidateEdge :=
  cands.filterMap fun candidate =>
    match candidate.pairScores with
    | none => none
    | some scores =>
      let categorization := scoreCandidate scores thresholds reviewThreshold
      if keptCategory categorization.category then
        some
          { prId := candidate.prId
            headSha := candidate.headSha
            category := categorization.category
            finalScore := categorization.finalScore
            rank := 0 }
      else none

/-- The `categoryRank` table of `processIngestPr`. The source object maps
exactly the four persisted categories; the function is extended totally, and
the extra values are never consulted because sorting happens after the
kept-category filter. -/
def categoryRank : TriageCategory → ℕ
  | .SAME_CHANGE => 0
  | .SAME_FEATURE => 1
  | .COMPETING_IMPLEMENTATION => 2
  | .RELATED => 3
  | .NOT_RELATED => 4
  | .UNCERTAIN => 5

/-- The sort comparator of `processIngestPr` as a relation: category rank
ascending, then final score descending, then candidate PR id ascending. -/
def edgeOrder (a b : CandidateEdge) : Prop :=
  categoryRank a.category < categoryRank b.category ∨
    (categoryRank a.category = categoryRank b.category ∧
      (b.finalScore < a.finalScore ∨
        (a.finalScore = b.finalScore ∧ a.prId ≤ b.prId)))

instance : DecidableRel edgeOrder := fun a b => by
  unfold edgeOrder; infer_instance

/-- The rank assignment `rank: index + 1` of `insertCandidateEdges`. -/
def assignRanks : ℕ → List CandidateEdge → List CandidateEdge
  | _, [] => []
  | k, e :: es => { e with rank := k } :: assignRanks (k + 1) es

/-- The persistence pipeline of `processIngestPr`: score, sort with the
comparator (modelled by stable insertion sort), truncate to
`max_candidates_final`, and assign 1-based ranks. -/
def rankCandidates (cands : List CandidateInput) (thresholds : Thresholds)
    (reviewThreshold : ℚ) : List CandidateEdge :=
  let scored := scoreCandidates cands thresholds reviewThreshold
  let sorted := List.insertionSort edgeOrder scored
  let limited := sorted.take thresholds.candidates.max_candidates_final
  assignRanks 1 limited

/-! ## Scorer lemmas -/

theorem clamp01_of_mem_unit {x : ℚ} (h0 : 0 ≤ x) (h1 : x ≤ 1) : clamp01 x = x := by
  unfold clamp01
  rw [if_neg (not_lt.2 h0), if_neg (not_lt.2 h1)]

theorem clamp01_zero : clamp01 0 = 0 :=
  clamp01_of_mem_unit le_rfl (by norm_num)

/-- When all five production signals vanish, the production score is exactly
zero, whatever the weights. -/
theorem computeProdScore_eq_zero {scores : PairScores} (thresholds : Thresholds)
    (hm : scores.prodMinhash = 0) (he : scores.prodExports = 0)
    (hs : scores.prodSymbols = 0) (hf : scores.prodFiles = 0)
    (hi : scores.prodImports = 0) :
    computeProdScore scores thresholds = 0 := by
  unfold computeProdScore
  rw [hm, he, hs, hf, hi]
  simp only [mul_zero, add_zero]
  exact clamp01_zero

/-- Every branch of `scoreCandidate` carries the same final score. -/
theorem scoreCandidate_finalScore (scores : PairScores) (thresholds : Thresholds)
    (reviewThreshold : ℚ) :
    (scoreCandidate scores thresholds reviewThreshold).finalScore =
      clamp01 (computeProdScore scores thresholds +
        testContribution scores thresholds + docContribution scores thresholds) := by
  unfold scoreCandidate
  dsimp only
  split
  · rfl
  · split
    · rfl
    · split
      · rfl
      · split <;> rfl

/-! ## Claim C1 -/

/-- C1: for every score vector and threshold configuration, an exact
canonical-diff-hash signal (`prodDiffExact = 1`) makes `scoreCandidate`
return SAME_CHANGE, regardless of the other seven signals: the first
category rule short-circuits the rest. -/
theorem C1_exact_hash_forces_same_change (scores : PairScores)
    (thresholds : Thresholds) (reviewThreshold : ℚ)
    (h : scores.prodDiffExact = 1) :
    (scoreCandidate scores thresholds reviewThreshold).category = .SAME_CHANGE := by
  unfold scoreCandidate
  rw [if_pos (Or.inl h)]

/-- A sample threshold configuration (the shape of config/thresholds.yaml). -/
def sampleThresholds : Thresholds :=
  { version := 1
    candidates :=
      { max_candidates_from_lsh := 50, max_candidates_final := 25, recent_pr_window_days := 30 }
    similarity :=
      { same_change := { prod_minhash_threshold := 92/100, prod_files_overlap_threshold := 3/4 }
        same_feature := { prod_score_threshold := 3/4, supporting_signal_min := 3/10 }
        competing_impl := { tests_intent_threshold := 85/100, prod_score_max := 1/4 } }
    caps := { test_score_cap := 3/20, doc_score_cap := 1/10 }
    weights :=
      { production :=
          { minhash := 11/20, exports := 3/20, symbols := 1/10, files := 3/20, imports := 1/20 }
        tests := { intent := 6/10 }
        docs := { structureWeight := 4/10 } } }

/-- C1 witness: a concrete score vector with `prodDiffExact = 1` but every
other signal adverse (zero production similarity, full test/doc similarity)
is still categorized SAME_CHANGE. -/
theorem C1_exact_hash_forces_same_change_witness :
    ({ prodDiffExact := 1, prodMinhash := 0, prodFiles := 0, prodExports := 0,
       prodSymbols := 0, prodImports := 0, testsIntent := 1, docsStruct := 1 } :
        PairScores).prodDiffExact = 1 ∧
    (scoreCandidate
      { prodDiffExact := 1, prodMinhash := 0, prodFiles := 0, prodExports := 0,
        prodSymbols := 0, prodImports := 0, testsIntent := 1, docsStruct := 1 }
      sampleThresholds (11/20)).category = .SAME_CHANGE :=
  ⟨rfl, C1_exact_hash_forces_same_change _ _ _ rfl⟩

/-! ## Claim C2 -/

/-- A threshold configuration on which the claim's equality fails: the tests
and docs channel weights are zero while the caps are 1/2 each, so full
test/doc similarity contributes `min(0, cap) = 0`, not the cap. -/
def capsCounterThresholds : Thresholds :=
  { version := 1
    candidates :=
      { max_candidates_from_lsh := 50, max_candidates_final := 25, recent_pr_window_days := 30 }
    similarity :=
      { same_change := { prod_minhash_threshold := 92/100, prod_files_overlap_threshold := 3/4 }
        same_feature := { prod_score_threshold := 3/4, supporting_signal_min := 3/10 }
        competing_impl := { tests_intent_threshold := 85/100, prod_score_max := 1/4 } }
    caps := { test_score_cap := 1/2, doc_score_cap := 1/2 }
    weights :=
      { production :=
          { minhash := 11/20, exports := 3/20, symbols := 1/10, files := 3/20, imports := 1/20 }
        tests := { intent := 0 }
        docs := { structureWeight := 0 } } }

/-- The claim's distinguished score vector: all five production signals zero,
testsIntent = 1, docsStruct = 1 (no exact hash). -/
def capsProbeScores : PairScores :=
  { prodDiffExact := 0, prodMinhash := 0, prodFiles := 0, prodExports := 0,
    prodSymbols := 0, prodImports := 0, testsIntent := 1, docsStruct := 1 }

/-- C2 counterexample: the claim asserts that for every threshold
configuration, testsIntent = 1, docsStruct = 1 and zero production signals
give `finalScore = testCap + docCap`; on `capsCounterThresholds` the final
score is 0 while the caps sum to 1. -/
theorem C2_final_score_eq_caps_counterexample :
    (scoreCandidate capsProbeScores capsCounterThresholds (11/20)).finalScore ≠
      capsCounterThresholds.caps.test_score_cap +
        capsCounterThresholds.caps.doc_score_cap := by
  rw [scoreCandidate_finalScore]
  norm_num [computeProdScore, testContribution, docContribution, capsProbeScores,
    capsCounterThresholds, clamp01, min_def]

/-- C2 (amended): the contribution caps hold unconditionally
(`testContribution ≤ testCap`, `docContribution ≤ docCap`); and with
testsIntent = 1, docsStruct = 1 and zero production signals, the final score
equals `testCap + docCap` provided each channel weight is at least its cap
and the caps are nonnegative with sum at most 1 (as in any sensible
configuration) — in particular it is 1 exactly when the caps sum to 1. -/
theorem C2_caps_enforced (scores : PairScores) (thresholds : Thresholds)
    (reviewThreshold : ℚ) :
    testContribution scores thresholds ≤ thresholds.caps.test_score_cap ∧
    docContribution scores thresholds ≤ thresholds.caps.doc_score_cap ∧
    (scores.prodMinhash = 0 → scores.prodExports = 0 → scores.prodSymbols = 0 →
      scores.prodFiles = 0 → scores.prodImports = 0 →
      scores.testsIntent = 1 → scores.docsStruct = 1 →
      thresholds.caps.test_score_cap ≤ thresholds.weights.tests.intent →
      thresholds.caps.doc_score_cap ≤ thresholds.weights.docs.structureWeight →
      0 ≤ thresholds.caps.test_score_cap → 0 ≤ thresholds.caps.doc_score_cap →
      thresholds.caps.test_score_cap + thresholds.caps.doc_score_cap ≤ 1 →
      (scoreCandidate scores thresholds reviewThreshold).finalScore =
          thresholds.caps.test_score_cap + thresholds.caps.doc_score_cap ∧
        ((scoreCandidate scores thresholds reviewThreshold).finalScore = 1 ↔
          thresholds.caps.test_score_cap + thresholds.caps.doc_score_cap = 1)) := by
  refine ⟨min_le_right _ _, min_le_right _ _, ?_⟩
  intro hm he hs hf hi ht hd hwt hwd hct hcd hsum
  have hprod : computeProdScore scores thresholds = 0 :=
    computeProdScore_eq_zero thresholds hm he hs hf hi
  have htest : testContribution scores thresholds = thresholds.caps.test_score_cap := by
    unfold testContribution
    rw [ht, mul_one]
    exact min_eq_right hwt
  have hdoc : docContribution scores thresholds = thresholds.caps.doc_score_cap := by
    unfold docContribution
    rw [hd, mul_one]
    exact min_eq_right hwd
  have hfinal : (scoreCandidate scores thresholds reviewThreshold).finalScore =
      thresholds.caps.test_score_cap + thresholds.caps.doc_score_cap := by
    rw [scoreCandidate_finalScore, hprod, htest, hdoc, zero_add]
    exact clamp01_of_mem_unit (by linarith) hsum
  exact ⟨hfinal, by rw [hfinal]⟩

/-- C2 witness: on the sample configuration (test cap 3/20 ≤ weight 6/10,
doc cap 1/10 ≤ weight 4/10), the probe scores give final score
3/20 + 1/10 = 1/4, and the caps bound the contributions. -/
theorem C2_caps_enforced_witness :
    testContribution capsProbeScores sampleThresholds ≤
        sampleThresholds.caps.test_score_cap ∧
    (scoreCandidate capsProbeScores sampleThresholds (11/20)).finalScore = 1/4 := by
  have h := C2_caps_enforced capsProbeScores sampleThresholds (11/20)
  refine ⟨h.1, ?_⟩
  have h3 := h.2.2 rfl rfl rfl rfl rfl rfl rfl (by norm_num [sampleThresholds])
    (by norm_num [sampleThresholds]) (by norm_num [sampleThresholds])
    (by norm_num [sampleThresholds]) (by norm_num [sampleThresholds])
  rw [h3.1]
  norm_num [sampleThresholds]

/-! ## Claim C3 -/

/-- C3: the Jaccard boundary laws, for both the set-level
`jaccardSimilarity` and the array-level `jaccardFromArrays` used for the
per-signal comparisons: two empty sets give 1; an empty set against a
non-empty set gives 0 (either way round); a non-empty set against itself
gives 1. -/
theorem C3_jaccard_boundary_laws :
    jaccardSimilarity ∅ ∅ = 1 ∧ jaccardFromArrays [] [] = 1 ∧
    (∀ A : Finset String, A.Nonempty →
      jaccardSimilarity ∅ A = 0 ∧ jaccardSimilarity A ∅ = 0 ∧
        jaccardSimilarity A A = 1) ∧
    (∀ a : List String, a ≠ [] →
      jaccardFromArrays [] a = 0 ∧ jaccardFromArrays a [] = 0 ∧
        jaccardFromArrays a a = 1) := by
  refine ⟨by simp [jaccardSimilarity], by simp [jaccardFromArrays], ?_, ?_⟩
  · intro A hA
    have hcard : A.card ≠ 0 := by
      simpa [Finset.card_eq_zero] using hA.ne_empty
    refine ⟨by simp [jaccardSimilarity, hcard], by simp [jaccardSimilarity, hcard], ?_⟩
    unfold jaccardSimilarity
    rw [if_neg (by simp [hcard]), if_neg (by simp [hcard])]
    simp only [Finset.inter_self, Nat.add_sub_cancel]
    rw [if_neg hcard]
    exact div_self (by exact_mod_cast hcard)
  · intro a ha
    have hA : a.toFinset.Nonempty := by
      obtain ⟨x, hx⟩ := List.exists_mem_of_ne_nil a ha
      exact ⟨x, List.mem_toFinset.2 hx⟩
    have hcard : a.toFinset.card ≠ 0 := by
      simpa [Finset.card_eq_zero] using hA.ne_empty
    refine ⟨by simp [jaccardFromArrays, hcard], by simp [jaccardFromArrays, hcard], ?_⟩
    unfold jaccardFromArrays
    rw [if_neg (by simp [hcard]), if_neg (by simp [hcard])]
    simp only [Finset.inter_self, Nat.add_sub_cancel]
    rw [if_neg hcard]
    exact div_self (by exact_mod_cast hcard)

/-- C3 witness: the laws evaluated at the concrete singleton set/array. -/
theorem C3_jaccard_boundary_laws_witness :
    ({"x"} : Finset String).Nonempty ∧ (["x"] : List String) ≠ [] ∧
    jaccardSimilarity ∅ {"x"} = 0 ∧ jaccardSimilarity {"x"} {"x"} = 1 ∧
    jaccardFromArrays [] ["x"] = 0 ∧ jaccardFromArrays ["x"] ["x"] = 1 := by
  have h2 := C3_jaccard_boundary_laws.2.2.1 {"x"} ⟨"x", by decide⟩
  have h3 := C3_jaccard_boundary_laws.2.2.2 ["x"] (by decide)
  exact ⟨⟨"x", by decide⟩, by decide, h2.1, h2.2.2, h3.1, h3.2.2⟩

/-! ## Claim C8 -/

/-- C8: a candidate pair with no production overlap at all (exact hash
absent, zero production MinHash/file/export/symbol/import similarity) has
production score exactly 0; with positive SAME_CHANGE and SAME_FEATURE
thresholds and a nonnegative COMPETING_IMPLEMENTATION production ceiling,
such a pair is never categorized SAME_CHANGE or SAME_FEATURE however similar
its tests and docs are, and it is categorized COMPETING_IMPLEMENTATION
whenever testsIntent reaches its threshold. -/
theorem C8_test_only_overlap_is_competing (scores : PairScores)
    (thresholds : Thresholds) (reviewThreshold : ℚ)
    (hexact : scores.prodDiffExact = 0) (hmh : scores.prodMinhash = 0)
    (hfiles : scores.prodFiles = 0) (hexp : scores.prodExports = 0)
    (hsym : scores.prodSymbols = 0) (himp : scores.prodImports = 0)
    (hscThr : 0 < thresholds.similarity.same_change.prod_minhash_threshold)
    (hsfThr : 0 < thresholds.similarity.same_feature.prod_score_threshold)
    (hciMax : 0 ≤ thresholds.similarity.competing_impl.prod_score_max) :
    computeProdScore scores thresholds = 0 ∧
    (scoreCandidate scores thresholds reviewThreshold).category ≠ .SAME_CHANGE ∧
    (scoreCandidate scores thresholds reviewThreshold).category ≠ .SAME_FEATURE ∧
    (thresholds.similarity.competing_impl.tests_intent_threshold ≤ scores.testsIntent →
      (scoreCandidate scores thresholds reviewThreshold).category =
        .COMPETING_IMPLEMENTATION) := by
  have hprod : computeProdScore scores thresholds = 0 :=
    computeProdScore_eq_zero thresholds hmh hexp hsym hfiles himp
  have hc1 : ¬(scores.prodDiffExact = 1 ∨
      (scores.prodMinhash ≥ thresholds.similarity.same_change.prod_minhash_threshold ∧
        scores.prodFiles ≥ thresholds.similarity.same_change.prod_files_overlap_threshold)) := by
    rintro (h1 | ⟨h2, _⟩)
    · rw [hexact] at h1
      norm_num at h1
    · rw [hmh] at h2
      linarith
  have hc2 : ¬(computeProdScore scores thresholds ≥
        thresholds.similarity.same_feature.prod_score_threshold ∧
      max (max scores.testsIntent scores.docsStruct) scores.prodMinhash ≥
        thresholds.similarity.same_feature.supporting_signal_min) := by
    rintro ⟨h1, _⟩
    rw [hprod] at h1
    linarith
  refine ⟨hprod, ?_⟩
  unfold scoreCandidate
  rw [if_neg hc1, if_neg hc2]
  refine ⟨?_, ?_, ?_⟩
  · split
    · simp
    · split <;> simp
  · split
    · simp
    · split <;> simp
  · intro htests
    rw [if_pos ⟨htests, by rw [hprod]; exact hciMax⟩]

/-- C8 witness: zero production signals with testsIntent = 9/10 (above the
sample threshold 85/100) give production score 0 and category
COMPETING_IMPLEMENTATION. -/
theorem C8_test_only_overlap_is_competing_witness :
    computeProdScore
        { prodDiffExact := 0, prodMinhash := 0, prodFiles := 0, prodExports := 0,
          prodSymbols := 0, prodImports := 0, testsIntent := 9/10, docsStruct := 9/10 }
        sampleThresholds = 0 ∧
    (scoreCandidate
        { prodDiffExact := 0, prodMinhash := 0, prodFiles := 0, prodExports := 0,
          prodSymbols := 0, prodImports := 0, testsIntent := 9/10, docsStruct := 9/10 }
        sampleThresholds (11/20)).category = .COMPETING_IMPLEMENTATION := by
  have h := C8_test_only_overlap_is_competing
    { prodDiffExact := 0, prodMinhash := 0, prodFiles := 0, prodExports := 0,
      prodSymbols := 0, prodImports := 0, testsIntent := 9/10, docsStruct := 9/10 }
    sampleThresholds (11/20) rfl rfl rfl rfl rfl rfl (by norm_num [sampleThresholds])
    (by norm_num [sampleThresholds]) (by norm_num [sampleThresholds])
  exact ⟨h.1, h.2.2.2 (by norm_num [sampleThresholds])⟩

/-! ## Decimal rendering lemmas (for the LSH band prefix) -/

/-- Decimal digit characters of a natural, most significant first: the
reference shape of `Nat.repr`. -/
def natChars (n : ℕ) : List Char :=
  if _h : n < 10 then [Nat.digitChar n]
  else natChars (n / 10) ++ [Nat.digitChar (n % 10)]
termination_by n
decreasing_by
  exact Nat.div_lt_self (by omega) (by norm_num)

theorem natChars_eq (n : ℕ) :
    natChars n =
      if n < 10 then [Nat.digitChar n]
      else natChars (n / 10) ++ [Nat.digitChar (n % 10)] := by
  rw [natChars]
  by_cases h : n < 10 <;> simp [h]

theorem toDigitsCore_eq_natChars :
    ∀ fuel n acc, n < fuel → Nat.toDigitsCore 10 fuel n acc = natChars n ++ acc := by
  intro fuel
  induction fuel with
  | zero => intro n acc h; omega
  | succ fuel ih =>
    intro n acc h
    by_cases hn : n / 10 = 0
    · have hlt : n < 10 := by omega
      simp only [Nat.toDigitsCore]
      rw [if_pos hn, natChars_eq n, if_pos hlt, Nat.mod_eq_of_lt hlt]
      simp
    · have h10 : 10 ≤ n := by
        rcases Nat.lt_or_ge n 10 with h' | h'
        · exact absurd (Nat.div_eq_of_lt h') hn
        · exact h'
      simp only [Nat.toDigitsCore]
      rw [if_neg hn]
      have hfuel : n / 10 < fuel := by
        have := Nat.div_lt_self (by omega : 0 < n) (by norm_num : 1 < 10)
        omega
      rw [ih (n / 10) _ hfuel, natChars_eq n, if_neg (not_lt.2 h10)]
      simp

theorem repr_eq_natChars (n : ℕ) : Nat.repr n = ⟨natChars n⟩ := by
  unfold Nat.repr Nat.toDigits
  rw [toDigitsCore_eq_natChars (n + 1) n [] (by omega)]
  simp [List.asString]

theorem digitChar_inj_lt10 :
    ∀ m < 10, ∀ n < 10, Nat.digitChar m = Nat.digitChar n → m = n := by
  decide

theorem digitChar_ne_colon : ∀ n < 10, Nat.digitChar n ≠ ':' := by
  decide

theorem natChars_ne_nil (n : ℕ) : natChars n ≠ [] := by
  rw [natChars_eq n]
  split
  · simp
  · simp

theorem natChars_no_colon (n : ℕ) : ∀ c ∈ natChars n, c ≠ ':' := by
  induction n using Nat.strong_induction_on with
  | _ n ih =>
    rw [natChars_eq n]
    split
    next h =>
      intro c hc
      simp only [List.mem_singleton] at hc
      subst hc
      exact digitChar_ne_colon n h
    next h =>
      intro c hc
      rw [List.mem_append] at hc
      rcases hc with hc | hc
      · exact ih (n / 10) (Nat.div_lt_self (by omega) (by norm_num)) c hc
      · simp only [List.mem_singleton] at hc
        subst hc
        exact digitChar_ne_colon (n % 10) (Nat.mod_lt _ (by norm_num))

theorem natChars_inj : ∀ m n : ℕ, natChars m = natChars n → m = n := by
  intro m
  induction m using Nat.strong_induction_on with
  | _ m ih =>
    intro n h
    by_cases hm : m < 10 <;> by_cases hn : n < 10
    · rw [natChars_eq m, if_pos hm, natChars_eq n, if_pos hn] at h
      simp only [List.cons.injEq, and_true] at h
      exact digitChar_inj_lt10 m hm n hn h
    · rw [natChars_eq m, if_pos hm, natChars_eq n, if_neg hn] at h
      have hlen := congrArg List.length h
      simp only [List.length_singleton, List.length_append] at hlen
      have hne := natChars_ne_nil (n / 10)
      have : (natChars (n / 10)).length = 0 := by omega
      exact absurd (List.length_eq_zero.1 this) hne
    · rw [natChars_eq m, if_neg hm, natChars_eq n, if_pos hn] at h
      have hlen := congrArg List.length h
      simp only [List.length_singleton, List.length_append] at hlen
      have hne := natChars_ne_nil (m / 10)
      have : (natChars (m / 10)).length = 0 := by omega
      exact absurd (List.length_eq_zero.1 this) hne
    · rw [natChars_eq m, if_neg hm, natChars_eq n, if_neg hn] at h
      obtain ⟨h1, h2⟩ := List.append_inj' h (by simp)
      have hdiv := ih (m / 10) (Nat.div_lt_self (by omega) (by norm_num)) (n / 10) h1
      simp only [List.cons.injEq, and_true] at h2
      have hmod := digitChar_inj_lt10 (m % 10) (Nat.mod_lt _ (by norm_num))
        (n % 10) (Nat.mod_lt _ (by norm_num)) h2
      omega

/-- Lists that agree after appending a colon-separated suffix agree before
it, when neither prefix contains a colon. -/
theorem append_colon_inj :
    ∀ (as bs tail1 tail2 : List Char), (∀ c ∈ as, c ≠ ':') → (∀ c ∈ bs, c ≠ ':') →
      as ++ ':' :: tail1 = bs ++ ':' :: tail2 → as = bs := by
  intro as
  induction as with
  | nil =>
    intro bs t1 t2 _ hb h
    cases bs with
    | nil => rfl
    | cons b bs' =>
      simp only [List.nil_append, List.cons_append, List.cons.injEq] at h
      exact absurd h.1.symm (hb b (by simp))
  | cons a as' ih =>
    intro bs t1 t2 ha hb h
    cases bs with
    | nil =>
      simp only [List.cons_append, List.nil_append, List.cons.injEq] at h
      exact absurd h.1 (ha a (by simp))
    | cons b bs' =>
      simp only [List.cons_append, List.cons.injEq] at h
      rw [h.1]
      rw [ih bs' t1 t2 (fun c hc => ha c (by simp [hc])) (fun c hc => hb c (by simp [hc])) h.2]

/-- The band index before the colon determines the bucket id: equal ids mean
equal band indices, whatever the digests after the colon. -/
theorem bucketId_inj {i j : ℕ} {d1 d2 : String}
    (h : Nat.repr i ++ ":" ++ d1 = Nat.repr j ++ ":" ++ d2) : i = j := by
  have hd := congrArg String.data h
  rw [repr_eq_natChars i, repr_eq_natChars j] at hd
  simp only [String.data_append] at hd
  have hd' : natChars i ++ ':' :: d1.data = natChars j ++ ':' :: d2.data := by
    simpa using hd
  exact natChars_inj i j
    (append_colon_inj _ _ _ _ (natChars_no_colon i) (natChars_no_colon j) hd')

/-! ## Claim C9 -/

/-- C9: for a positive band size, `lshBucketIds` fails (returns an error)
exactly when the signature length is not divisible by the band size;
otherwise it returns one bucket id per band, the id of band `i` being the
band index `i`, a colon, and the digest of that band's values — so two bands
in different positions always get distinct bucket ids, even when their
values coincide. -/
theorem C9_lsh_bucket_ids_spec (signature : List ℕ) (bandSize : ℕ)
    (hband : 0 < bandSize) :
    ((∃ e, lshBucketIds signature bandSize = .error e) ↔
      ¬ bandSize ∣ signature.length) ∧
    (∀ ids, lshBucketIds signature bandSize = .ok ids →
      ids.length = signature.length / bandSize ∧
      (∀ i (hi : i < ids.length), ids.get ⟨i, hi⟩ =
        Nat.repr i ++ ":" ++
          hashBand ((signature.drop (i * bandSize)).take bandSize)) ∧
      (∀ i j (hi : i < ids.length) (hj : j < ids.length), i ≠ j →
        ids.get ⟨i, hi⟩ ≠ ids.get ⟨j, hj⟩)) := by
  unfold lshBucketIds
  by_cases hmod : signature.length % bandSize ≠ 0
  · rw [if_pos (Or.inr hmod)]
    constructor
    · constructor
      · intro _
        rw [Nat.dvd_iff_mod_eq_zero]
        exact hmod
      · intro _
        exact ⟨_, rfl⟩
    · intro ids h
      exact absurd h (by simp)
  · rw [if_neg (by omega)]
    constructor
    · constructor
      · intro ⟨e, he⟩
        exact absurd he (by simp)
      · intro hdvd
        rw [Nat.dvd_iff_mod_eq_zero] at hdvd
        exact absurd hdvd hmod
    · intro ids h
      simp only [Except.ok.injEq] at h
      subst h
      refine ⟨by simp, ?_, ?_⟩
      · intro i hi
        simp [List.get_eq_getElem]
      · intro i j hi hj hij
        simp only [List.get_eq_getElem, List.getElem_map, List.getElem_range]
        intro hcontra
        exact hij (bucketId_inj hcontra)

/-- C9 witness: at band size 8, a 16-value signature yields bucket ids
`0:…` and `1:…` which are distinct even though both bands hold the same
values, while a 5-value signature fails. -/
theorem C9_lsh_bucket_ids_spec_witness :
    (0 : ℕ) < 8 ∧
    (∀ ids, lshBucketIds (List.replicate 16 7) 8 = .ok ids →
      ids.length = 2 ∧
      (∀ i j (hi : i < ids.length) (hj : j < ids.length), i ≠ j →
        ids.get ⟨i, hi⟩ ≠ ids.get ⟨j, hj⟩)) ∧
    (∃ e, lshBucketIds (List.replicate 5 7) 8 = .error e) := by
  have h16 := C9_lsh_bucket_ids_spec (List.replicate 16 7) 8 (by decide)
  have h5 := C9_lsh_bucket_ids_spec (List.replicate 5 7) 8 (by decide)
  refine ⟨by decide, ?_, h5.1.2 (by decide)⟩
  intro ids hids
  obtain ⟨hlen, _, hdistinct⟩ := h16.2 ids hids
  exact ⟨by simpa using hlen, hdistinct⟩

/-! ## Claim C6 -/

/-- Classification rules in the shape of config/classification_rules.yaml,
including the `ast_refinements` block that configures content-based test
detection. -/
def c6Rules : ClassificationRules :=
  { version := 1
    channels :=
      { tests :=
          { path_globs := ["**/*.test.ts", "**/*.spec.ts", "**/__tests__/**", "**/tests/**"]
            extensions := [".test.ts", ".spec.ts"] }
        docs := { path_globs := ["**/*.md", "docs/**"], extensions := [".md"] }
        meta := { path_globs := [".cursor/**", "**/*trace*.*"], extensions := [] }
        production := { path_globs := [], extensions := [".ts", ".tsx"] } }
    ast_refinements :=
      some { test_framework_imports := ["vitest", "jest"]
             test_function_names := ["describe", "it", "test"] } }

/-- A source-family file outside every test glob whose content imports a
test framework and calls the test-runner entry points. -/
def colocatedTestFile : PatchInput :=
  ⟨"src/calc.ts",
    some "+import x from \"vitest\";\n+describe(\"calc\", () => it(\"adds\"));"⟩

/-- C6 (behaviour of the code at the claim's scenario): `classifyFiles`
derives every channel from the file path alone — the patch content is never
consulted — and therefore assigns PRODUCTION, not TESTS, to a file whose
content contains `describe`/`it` calls and a test-framework import but whose
path matches no test glob, even with `ast_refinements` configured. -/
theorem C6_classification_ignores_content :
    (∀ (files : List PatchInput) (rules : ClassificationRules),
      classifyFiles files rules = files.map fun f => (f, classifyPath f.path rules)) ∧
    classifyFiles [colocatedTestFile] c6Rules =
      [(colocatedTestFile, .PRODUCTION)] := by
  refine ⟨fun _ _ => rfl, ?_⟩
  decide

/-! ## Claim C7 -/

/-- C7: when the production channel contributes no added/removed patch
lines, the analysis run computes the all-max (`0xffffffff`) 128-slot
sentinel signature, stores no canonical diff hash and performs no exact-hash
lookup, computes no LSH bucket ids and performs neither the LSH bucket
lookup nor the LSH insert — and the run succeeds (no error). -/
theorem C7_empty_production_diff_trace (productionFiles : List PatchInput)
    (h : collectPatchLines productionFiles = []) :
    ∃ trace, analyzeProductionChannel productionFiles = .ok trace ∧
      trace.prodSignature = List.replicate 128 0xffffffff ∧
      trace.canonicalDiffHash = none ∧
      trace.exactHashLookup = false ∧
      trace.bucketIds = [] ∧
      trace.lshLookup = false ∧
      trace.lshInsert = false := by
  have hsh : toShinglesFromPatchLines ([] : List String) = ∅ := by decide
  have hmh : computeMinhash (∅ : Finset String) = List.replicate 128 0xffffffff := by
    rw [computeMinhash]
    norm_num [MINHASH_SIZE, UINT32_MAX]
  unfold analyzeProductionChannel
  rw [h]
  dsimp only
  rw [hsh, hmh]
  norm_num

/-- C7 witness: a docs-only change (no patch on the one production file
beyond context lines, and a patch-less file) produces the sentinel
signature, no canonical hash, and no LSH traffic. -/
theorem C7_empty_production_diff_trace_witness :
    collectPatchLines [⟨"README.md", none⟩, ⟨"a.ts", some "@@ -1 +1 @@\n ctx"⟩] = [] ∧
    ∃ trace,
      analyzeProductionChannel [⟨"README.md", none⟩, ⟨"a.ts", some "@@ -1 +1 @@\n ctx"⟩] =
          .ok trace ∧
        trace.prodSignature = List.replicate 128 0xffffffff ∧
        trace.canonicalDiffHash = none ∧
        trace.exactHashLookup = false ∧
        trace.bucketIds = [] ∧
        trace.lshLookup = false ∧
        trace.lshInsert = false :=
  ⟨by decide, C7_empty_production_diff_trace _ (by decide)⟩

/-! ## Claim C10 -/

theorem edgeOrder_trans : ∀ a b c : CandidateEdge,
    edgeOrder a b → edgeOrder b c → edgeOrder a c := by
  intro a b c hab hbc
  unfold edgeOrder at *
  rcases hab with h1 | ⟨h1, h2⟩ <;> rcases hbc with h3 | ⟨h3, h4⟩
  · exact Or.inl (h1.trans h3)
  · exact Or.inl (by omega)
  · exact Or.inl (by omega)
  · refine Or.inr ⟨h1.trans h3, ?_⟩
    rcases h2 with h2 | ⟨h2, h2'⟩ <;> rcases h4 with h4 | ⟨h4, h4'⟩
    · exact Or.inl (h4.trans h2)
    · exact Or.inl (h4 ▸ h2)
    · exact Or.inl (h2 ▸ h4)
    · exact Or.inr ⟨h2.trans h4, h2'.trans h4'⟩

theorem edgeOrder_total : ∀ a b : CandidateEdge, edgeOrder a b ∨ edgeOrder b a := by
  intro a b
  unfold edgeOrder
  rcases Nat.lt_trichotomy (categoryRank a.category) (categoryRank b.category) with h | h | h
  · exact Or.inl (Or.inl h)
  · rcases lt_trichotomy a.finalScore b.finalScore with h' | h' | h'
    · exact Or.inr (Or.inr ⟨h.symm, Or.inl h'⟩)
    · rcases Nat.le_total a.prId b.prId with h'' | h''
      · exact Or.inl (Or.inr ⟨h, Or.inr ⟨h', h''⟩⟩)
      · exact Or.inr (Or.inr ⟨h.symm, Or.inr ⟨h'.symm, h''⟩⟩)
    · exact Or.inl (Or.inr ⟨h, Or.inl h'⟩)
  · exact Or.inr (Or.inl h)

instance : IsTrans CandidateEdge edgeOrder := ⟨edgeOrder_trans⟩

instance : IsTotal CandidateEdge edgeOrder := ⟨edgeOrder_total⟩

theorem assignRanks_mem :
    ∀ (k : ℕ) (l : List CandidateEdge) (b : CandidateEdge), b ∈ assignRanks k l →
      ∃ a ∈ l, ∃ m, b = { a with rank := m } := by
  intro k l
  induction l generalizing k with
  | nil => intro b hb; simp [assignRanks] at hb
  | cons e es ih =>
    intro b hb
    rw [assignRanks] at hb
    rcases List.mem_cons.1 hb with hb | hb
    · exact ⟨e, by simp, k, hb⟩
    · obtain ⟨a, ha, m, hm⟩ := ih (k + 1) b hb
      exact ⟨a, by simp [ha], m, hm⟩

theorem assignRanks_pairwise (k : ℕ) {l : List CandidateEdge}
    (h : l.Pairwise edgeOrder) : (assignRanks k l).Pairwise edgeOrder := by
  induction l generalizing k with
  | nil => exact List.Pairwise.nil
  | cons e es ih =>
    rw [assignRanks]
    rw [List.pairwise_cons] at h ⊢
    refine ⟨?_, ih (k + 1) h.2⟩
    intro b hb
    obtain ⟨a, ha, m, hm⟩ := assignRanks_mem (k + 1) es b hb
    subst hm
    exact h.1 a ha

theorem assignRanks_length :
    ∀ (k : ℕ) (l : List CandidateEdge), (assignRanks k l).length = l.length := by
  intro k l
  induction l generalizing k with
  | nil => rfl
  | cons e es ih => simp [assignRanks, ih]

theorem assignRanks_map_rank :
    ∀ (k : ℕ) (l : List CandidateEdge),
      (assignRanks k l).map CandidateEdge.rank = List.range' k l.length := by
  intro k l
  induction l generalizing k with
  | nil => rfl
  | cons e es ih => simp [assignRanks, ih, List.range'_succ]

/-- `keptCategory` characterized. -/
theorem keptCategory_iff (c : TriageCategory) :
    keptCategory c = true ↔
      (c = .SAME_CHANGE ∨ c = .SAME_FEATURE ∨
        c = .COMPETING_IMPLEMENTATION ∨ c = .RELATED) := by
  cases c <;> simp [keptCategory]

/-- C10: every edge persisted by `rankCandidates` has one of the four
surfaced categories (candidates scoring NOT_RELATED are dropped before
persistence and UNCERTAIN is never produced); the persisted list is ordered
by category precedence (SAME_CHANGE first), then descending final score,
then ascending candidate PR id; and each edge's rank is its 1-based position
in that order. -/
theorem C10_persisted_edges_invariants (cands : List CandidateInput)
    (thresholds : Thresholds) (reviewThreshold : ℚ) :
    (∀ e ∈ rankCandidates cands thresholds reviewThreshold,
      e.category ≠ .NOT_RELATED ∧ e.category ≠ .UNCERTAIN ∧
      (e.category = .SAME_CHANGE ∨ e.category = .SAME_FEATURE ∨
        e.category = .COMPETING_IMPLEMENTATION ∨ e.category = .RELATED)) ∧
    (rankCandidates cands thresholds reviewThreshold).Pairwise edgeOrder ∧
    (rankCandidates cands thresholds reviewThreshold).map CandidateEdge.rank =
      List.range' 1 (rankCandidates cands thresholds reviewThreshold).length := by
  unfold rankCandidates
  dsimp only
  refine ⟨?_, ?_, ?_⟩
  · intro e he
    obtain ⟨a, ha, m, hm⟩ := assignRanks_mem 1 _ e he
    have ha' : a ∈ List.insertionSort edgeOrder
        (scoreCandidates cands thresholds reviewThreshold) :=
      List.mem_of_mem_take ha
    have ha'' : a ∈ scoreCandidates cands thresholds reviewThreshold :=
      (List.perm_insertionSort edgeOrder _).mem_iff.1 ha'
    have hkept : keptCategory a.category = true := by
      unfold scoreCandidates at ha''
      obtain ⟨c, _, hc⟩ := List.mem_filterMap.1 ha''
      rcases hcand : c.pairScores with _ | scores
      · rw [hcand] at hc; simp at hc
      · rw [hcand] at hc
        dsimp only at hc
        split at hc
        · simp only [Option.some.injEq] at hc
          rw [← hc]
          assumption
        · simp at hc
    have hcat := (keptCategory_iff a.category).1 hkept
    have hecat : e.category = a.category := by rw [hm]
    rw [hecat]
    refine ⟨?_, ?_, hcat⟩
    · rcases hcat with h | h | h | h <;> simp [h]
    · rcases hcat with h | h | h | h <;> simp [h]
  · exact assignRanks_pairwise 1
      ((List.sorted_insertionSort edgeOrder _).sublist (List.take_sublist _ _))
  · rw [assignRanks_map_rank, assignRanks_length]

/-! ## Claim C5 -/

/-- The kept diff lines per the spec's words (independent of
`extractAddedRemovedLines`): every added/removed line, with diff metadata
lines and no-newline markers excluded, of an optional patch. -/
def specKeptLines : Option String → List String
  | none => []
  | some p =>
    if p = "" then []
    else
      (splitOnChar '\n' p).filter fun line =>
        (startsWithStr line "+" || startsWithStr line "-") &&
          !isMetadataLine line && !isNoNewlineMarker line

/-- Claim C5's reference definition, following the spec sentence literally:
files sorted by path, a `file:<path>` marker per file, then every kept line
stripped of the leading `+`/`-` marker and of trailing whitespace, joined
with newlines. -/
def canonicalizeSpecStripped (files : List PatchInput) : String :=
  joinNl
    ((List.insertionSort pathLe files).map fun file =>
      ("file:" ++ file.path) ::
        (specKeptLines file.patch).map fun line => stripTrailing (dropChars line 1)).flatten

/-- The reference definition amended: the leading `+`/`-` marker is kept
(only trailing whitespace is stripped). -/
def canonicalizeSpecKept (files : List PatchInput) : String :=
  joinNl
    ((List.insertionSort pathLe files).map fun file =>
      ("file:" ++ file.path) ::
        (specKeptLines file.patch).map stripTrailing).flatten

theorem keptLine_pred_eq (line : String) :
    (!(isNoNewlineMarker line || isMetadataLine line) &&
        (startsWithStr line "+" || startsWithStr line "-")) =
      ((startsWithStr line "+" || startsWithStr line "-") &&
        !isMetadataLine line && !isNoNewlineMarker line) := by
  have taut : ∀ a b c d : Bool, (!(a || b) && (c || d)) = ((c || d) && !b && !a) := by
    decide
  exact taut _ _ _ _

theorem extract_eq_specFilter (p : String) :
    extractAddedRemovedLines p =
      (splitOnChar '\n' p).filter fun line =>
        (startsWithStr line "+" || startsWithStr line "-") &&
          !isMetadataLine line && !isNoNewlineMarker line := by
  unfold extractAddedRemovedLines
  exact List.filter_congr fun line _ => keptLine_pred_eq line

/-- C5 counterexample: the code keeps the leading `+` marker in the
canonical text (as the repository's own diff test expects), so its output
differs from the claim's marker-stripping reference already on a one-line
patch. -/
theorem C5_stripped_reference_counterexample :
    canonicalizeProductionDiff [⟨"a", some "+x"⟩] ≠
      canonicalizeSpecStripped [⟨"a", some "+x"⟩] := by
  decide

/-- C5 (amended): for every input list, the canonicalizer's output equals
the reference definition with the leading `+`/`-` marker kept: files sorted
by path, a `file:<path>` marker line per file, every added/removed diff line
(marker kept, trailing whitespace stripped) in original order, metadata
lines and no-newline markers excluded, joined with newlines. -/
theorem C5_canonicalizer_matches_spec_with_markers (files : List PatchInput) :
    canonicalizeProductionDiff files = canonicalizeSpecKept files := by
  unfold canonicalizeProductionDiff canonicalizeSpecKept sortByPath
  congr 1
  congr 1
  apply List.map_congr_left
  intro file _
  unfold sectionOf sectionTail specKeptLines
  cases file.patch with
  | none => rfl
  | some p =>
    by_cases hp : p = ""
    · simp [hp]
    · simp only [hp, if_neg, ite_false]
      rw [extract_eq_specFilter]

/-! ## Order lemmas for the path sort (used by claim C4) -/

theorem listLe_total : ∀ as bs : List Char, listLe as bs = true ∨ listLe bs as = true := by
  intro as
  induction as with
  | nil => intro bs; exact Or.inl rfl
  | cons a as ih =>
    intro bs
    cases bs with
    | nil => exact Or.inr rfl
    | cons b bs =>
      by_cases hab : a = b
      · subst hab
        rcases ih bs with h | h
        · exact Or.inl (by simpa [listLe] using h)
        · exact Or.inr (by simpa [listLe] using h)
      · rcases lt_trichotomy a b with h | h | h
        · refine Or.inl ?_
          rw [listLe, if_neg hab]
          exact decide_eq_true h
        · exact absurd h hab
        · refine Or.inr ?_
          rw [listLe, if_neg (fun hba => hab hba.symm)]
          exact decide_eq_true h

theorem listLe_trans : ∀ as bs cs : List Char,
    listLe as bs = true → listLe bs cs = true → listLe as cs = true := by
  intro as
  induction as with
  | nil => intro bs cs _ _; rfl
  | cons a as ih =>
    intro bs cs hab hbc
    cases bs with
    | nil => simp [listLe] at hab
    | cons b bs =>
      cases cs with
      | nil => simp [listLe] at hbc
      | cons c cs =>
        rw [listLe] at hab hbc ⊢
        by_cases h1 : a = b <;> by_cases h2 : b = c
        · subst h1; subst h2
          rw [if_pos rfl] at hab hbc ⊢
          exact ih _ _ hab hbc
        · subst h1
          rw [if_pos rfl] at hab
          rw [if_neg h2] at hbc ⊢
          exact hbc
        · subst h2
          rw [if_pos rfl] at hbc
          rw [if_neg h1] at hab ⊢
          exact hab
        · rw [if_neg h1] at hab
          rw [if_neg h2] at hbc
          have hac : a < c := lt_trans (of_decide_eq_true hab) (of_decide_eq_true hbc)
          rw [if_neg (ne_of_lt hac)]
          exact decide_eq_true hac

theorem listLe_antisymm : ∀ as bs : List Char,
    listLe as bs = true → listLe bs as = true → as = bs := by
  intro as
  induction as with
  | nil =>
    intro bs _ hba
    cases bs with
    | nil => rfl
    | cons b bs => simp [listLe] at hba
  | cons a as ih =>
    intro bs hab hba
    cases bs with
    | nil => simp [listLe] at hab
    | cons b bs =>
      rw [listLe] at hab hba
      by_cases h1 : a = b
      · subst h1
        rw [if_pos rfl] at hab hba
        rw [ih bs hab hba]
      · rw [if_neg h1] at hab
        rw [if_neg (fun h : b = a => h1 h.symm)] at hba
        exact absurd (of_decide_eq_true hba) (lt_asymm (of_decide_eq_true hab))

instance : IsTotal PatchInput pathLe :=
  ⟨fun a b => by unfold pathLe strLe; exact listLe_total _ _⟩

instance : IsTrans PatchInput pathLe :=
  ⟨fun a b c hab hbc => by
    unfold pathLe strLe at *
    exact listLe_trans _ _ _ hab hbc⟩

theorem pathLe_antisymm_path {a b : PatchInput} (hab : pathLe a b) (hba : pathLe b a) :
    a.path = b.path := by
  unfold pathLe strLe at hab hba
  have := listLe_antisymm _ _ hab hba
  cases ha : a.path with
  | mk da =>
    cases hb : b.path with
    | mk db =>
      rw [ha, hb] at this
      simp only at this
      rw [this]

/-- The strict-on-paths order used to identify the two sorted lists of a
permutation pair with distinct paths. -/
def pathLtNe (a b : PatchInput) : Prop :=
  pathLe a b ∧ a.path ≠ b.path

instance : IsAntisymm PatchInput pathLtNe :=
  ⟨fun a b hab hba => absurd (pathLe_antisymm_path hab.1 hba.1) hab.2⟩

/-! ## Claim C4: congruence machinery for the path sort -/

theorem orderedInsert_congr {R : PatchInput → PatchInput → Prop}
    (hR : ∀ x y, R x y → x.path = y.path) :
    ∀ {s t : List PatchInput}, List.Forall₂ R s t → ∀ {x y : PatchInput}, R x y →
      List.Forall₂ R (List.orderedInsert pathLe x s) (List.orderedInsert pathLe y t) := by
  intro s t h
  induction h with
  | nil =>
    intro x y hxy
    exact List.Forall₂.cons hxy List.Forall₂.nil
  | @cons a b s' t' hab htail ih =>
    intro x y hxy
    simp only [List.orderedInsert]
    have hiff : pathLe x a ↔ pathLe y b := by
      unfold pathLe strLe
      rw [hR x y hxy, hR a b hab]
    by_cases hc : pathLe x a
    · rw [if_pos hc, if_pos (hiff.1 hc)]
      exact .cons hxy (.cons hab htail)
    · rw [if_neg hc, if_neg (fun h' => hc (hiff.2 h'))]
      exact .cons hab (ih hxy)

/-- Stable sorting two pointwise-related lists (the relation preserving
paths, hence every comparison) keeps them pointwise related. -/
theorem insertionSort_congr {R : PatchInput → PatchInput → Prop}
    (hR : ∀ x y, R x y → x.path = y.path) :
    ∀ {l1 l2 : List PatchInput}, List.Forall₂ R l1 l2 →
      List.Forall₂ R (List.insertionSort pathLe l1) (List.insertionSort pathLe l2) := by
  intro l1 l2 h
  induction h with
  | nil => exact .nil
  | cons hxy htail ih =>
    simp only [List.insertionSort]
    exact orderedInsert_congr hR ih hxy

/-- A sorted permutation of a list with pairwise-distinct paths is unique. -/
theorem sortByPath_eq_of_perm {l1 l2 : List PatchInput} (hp : l1.Perm l2)
    (hnd : (l1.map PatchInput.path).Nodup) : sortByPath l1 = sortByPath l2 := by
  have hperm1 : List.Perm (sortByPath l1) l1 := List.perm_insertionSort pathLe l1
  have hperm2 : List.Perm (sortByPath l2) l2 := List.perm_insertionSort pathLe l2
  have hnd2 : (l2.map PatchInput.path).Nodup := ((hp.map PatchInput.path).nodup_iff).1 hnd
  have hne1 : (sortByPath l1).Pairwise fun a b => a.path ≠ b.path := by
    have : ((sortByPath l1).map PatchInput.path).Nodup :=
      ((hperm1.map PatchInput.path).nodup_iff).2 hnd
    exact List.pairwise_map.1 this
  have hne2 : (sortByPath l2).Pairwise fun a b => a.path ≠ b.path := by
    have : ((sortByPath l2).map PatchInput.path).Nodup :=
      ((hperm2.map PatchInput.path).nodup_iff).2 hnd2
    exact List.pairwise_map.1 this
  have hsort1 : List.Sorted pathLtNe (sortByPath l1) :=
    ((List.sorted_insertionSort pathLe l1).and hne1).imp fun h => ⟨h.1, h.2⟩
  have hsort2 : List.Sorted pathLtNe (sortByPath l2) :=
    ((List.sorted_insertionSort pathLe l2).and hne2).imp fun h => ⟨h.1, h.2⟩
  exact List.eq_of_perm_of_sorted (hperm1.trans (hp.trans hperm2.symm)) hsort1 hsort2

/-! ## Claim C4: hunk-header invariance -/

/-- Two patch lines that are either equal or both hunk headers (`@@…`). -/
def hunkLineRel (a b : String) : Prop :=
  a = b ∨ (startsWithStr a "@@" = true ∧ startsWithStr b "@@" = true)

/-- Two optional patches whose line lists differ at most in hunk-header
lines. -/
def patchRel : Option String → Option String → Prop
  | none, none => True
  | some p, some q => List.Forall₂ hunkLineRel (splitOnChar '\n' p) (splitOnChar '\n' q)
  | _, _ => False

theorem isMetadataLine_of_atAt {line : String}
    (h : startsWithStr line "@@" = true) : isMetadataLine line = true := by
  unfold isMetadataLine
  exact List.any_eq_true.2 ⟨"@@", by simp [METADATA_LINE_PREFIXES], h⟩

theorem filter_eq_of_hunkRel :
    ∀ {l1 l2 : List String}, List.Forall₂ hunkLineRel l1 l2 →
      (l1.filter fun line =>
          !(isNoNewlineMarker line || isMetadataLine line) &&
            (startsWithStr line "+" || startsWithStr line "-")) =
        l2.filter fun line =>
          !(isNoNewlineMarker line || isMetadataLine line) &&
            (startsWithStr line "+" || startsWithStr line "-") := by
  intro l1 l2 h
  induction h with
  | nil => rfl
  | @cons a b s t hab htail ih =>
    rcases hab with hab | ⟨ha, hb⟩
    · subst hab
      rw [List.filter_cons, List.filter_cons, ih]
    · have hfa : (!(isNoNewlineMarker a || isMetadataLine a) &&
          (startsWithStr a "+" || startsWithStr a "-")) = false := by
        rw [isMetadataLine_of_atAt ha]
        simp
      have hfb : (!(isNoNewlineMarker b || isMetadataLine b) &&
          (startsWithStr b "+" || startsWithStr b "-")) = false := by
        rw [isMetadataLine_of_atAt hb]
        simp
      rw [List.filter_cons, List.filter_cons, hfa, hfb]
      simpa using ih

theorem extract_eq_of_patchRel {p q : String}
    (h : List.Forall₂ hunkLineRel (splitOnChar '\n' p) (splitOnChar '\n' q)) :
    extractAddedRemovedLines p = extractAddedRemovedLines q := by
  unfold extractAddedRemovedLines
  exact filter_eq_of_hunkRel h

theorem splitOnCharGo_ne_nil (sep : Char) :
    ∀ (cs acc : List Char), splitOnCharGo sep acc cs ≠ [] := by
  intro cs
  induction cs with
  | nil => intro acc; simp [splitOnCharGo]
  | cons c cs ih =>
    intro acc
    rw [splitOnCharGo]
    split
    · simp
    · exact ih (c :: acc)

theorem splitOnCharGo_eq_single_empty (sep : Char) :
    ∀ (cs acc : List Char), splitOnCharGo sep acc cs = [""] → acc = [] ∧ cs = [] := by
  intro cs
  induction cs with
  | nil =>
    intro acc h
    rw [splitOnCharGo] at h
    have h1 : (⟨acc.reverse⟩ : String) = "" := by
      simpa using h
    have h2 : acc.reverse = ([] : List Char) := by
      have := congrArg String.data h1
      simpa using this
    refine ⟨?_, rfl⟩
    have h3 := congrArg List.reverse h2
    simpa using h3
  | cons c cs ih =>
    intro acc h
    rw [splitOnCharGo] at h
    split at h
    · have : splitOnCharGo sep [] cs = [] := by
        have := congrArg List.tail h
        simpa using this
      exact absurd this (splitOnCharGo_ne_nil sep cs [])
    · obtain ⟨h1, _⟩ := ih (c :: acc) h
      simp at h1

theorem splitOnChar_eq_single_empty {q : String}
    (h : splitOnChar '\n' q = [""]) : q = "" := by
  obtain ⟨_, hdata⟩ := splitOnCharGo_eq_single_empty '\n' q.data [] h
  cases q with
  | mk data => simp only at hdata; rw [hdata]

theorem forall₂_single_left {R : String → String → Prop} {x : String} {l : List String}
    (h : List.Forall₂ R [x] l) : ∃ y, l = [y] ∧ R x y := by
  generalize hl : ([x] : List String) = lx at h
  induction h with
  | nil => exact absurd hl (by simp)
  | @cons a b s t hab htail _ =>
    simp only [List.cons.injEq] at hl
    obtain ⟨hax, hs⟩ := hl
    subst hax
    cases htail with
    | nil => exact ⟨b, rfl, hab⟩
    | cons _ _ => simp at hs

theorem forall₂_single_right {R : String → String → Prop} {y : String} {l : List String}
    (h : List.Forall₂ R l [y]) : ∃ x, l = [x] ∧ R x y := by
  generalize hl : ([y] : List String) = ly at h
  induction h with
  | nil => exact absurd hl (by simp)
  | @cons a b s t hab htail _ =>
    simp only [List.cons.injEq] at hl
    obtain ⟨hby, ht⟩ := hl
    subst hby
    cases htail with
    | nil => exact ⟨a, rfl, hab⟩
    | cons _ _ => simp at ht

theorem patchRel_empty_iff {p q : String}
    (h : List.Forall₂ hunkLineRel (splitOnChar '\n' p) (splitOnChar '\n' q)) :
    p = "" ↔ q = "" := by
  have hATnil : startsWithStr "" "@@" = false := by decide
  constructor
  · intro hp
    subst hp
    have hsplit : splitOnChar '\n' "" = [""] := rfl
    rw [hsplit] at h
    obtain ⟨y, hy, hr⟩ := forall₂_single_left h
    rcases hr with hr | ⟨ha, _⟩
    · apply splitOnChar_eq_single_empty
      rw [hy, ← hr]
    · rw [hATnil] at ha
      exact absurd ha (by simp)
  · intro hq
    subst hq
    have hsplit : splitOnChar '\n' "" = [""] := rfl
    rw [hsplit] at h
    obtain ⟨x, hx, hr⟩ := forall₂_single_right h
    rcases hr with hr | ⟨_, hb⟩
    · apply splitOnChar_eq_single_empty
      rw [hx, hr]
    · rw [hATnil] at hb
      exact absurd hb (by simp)

theorem sectionTail_some (p : String) :
    sectionTail (some p) =
      if p = "" then [] else (extractAddedRemovedLines p).map stripTrailing := rfl

theorem sectionOf_eq_of_patchRel {f g : PatchInput} (hpath : f.path = g.path)
    (hrel : patchRel f.patch g.patch) : sectionOf f = sectionOf g := by
  unfold sectionOf
  rw [hpath]
  congr 1
  cases hf : f.patch with
  | none =>
    cases hg : g.patch with
    | none => rfl
    | some q => rw [hf, hg] at hrel; exact absurd hrel (by simp [patchRel])
  | some p =>
    cases hg : g.patch with
    | none => rw [hf, hg] at hrel; exact absurd hrel (by simp [patchRel])
    | some q =>
      rw [hf, hg] at hrel
      unfold patchRel at hrel
      by_cases hp : p = ""
      · have hq : q = "" := (patchRel_empty_iff hrel).1 hp
        rw [sectionTail_some, sectionTail_some, if_pos hp, if_pos hq]
      · have hq : ¬q = "" := fun hq => hp ((patchRel_empty_iff hrel).2 hq)
        rw [sectionTail_some, sectionTail_some, if_neg hp, if_neg hq,
          extract_eq_of_patchRel hrel]

theorem canonicalize_eq_of_patchRel {l1 l2 : List PatchInput}
    (h : List.Forall₂ (fun f g => f.path = g.path ∧ patchRel f.patch g.patch) l1 l2) :
    canonicalizeProductionDiff l1 = canonicalizeProductionDiff l2 := by
  unfold canonicalizeProductionDiff sortByPath
  have hs := insertionSort_congr (fun x y hxy => hxy.1) h
  have hmaps : List.Forall₂ (· = ·)
      ((List.insertionSort pathLe l1).map sectionOf)
      ((List.insertionSort pathLe l2).map sectionOf) := by
    rw [List.forall₂_map_left_iff, List.forall₂_map_right_iff]
    exact hs.imp fun a b hxy => sectionOf_eq_of_patchRel hxy.1 hxy.2
  rw [List.forall₂_eq_eq_eq] at hmaps
  rw [hmaps]

/-! ## Claim C4: sensitivity to added/removed line content -/

/-- The single-substitution relation: pointwise equal, except that an
occurrence of `f1` on the left may face `f2` on the right. -/
def pairSwapRel (f1 f2 x y : PatchInput) : Prop :=
  x = y ∨ (x = f1 ∧ y = f2)

theorem pairSwap_count_le {f1 f2 : PatchInput} (hne : f1 ≠ f2) :
    ∀ {s t : List PatchInput}, List.Forall₂ (pairSwapRel f1 f2) s t →
      t.count f1 ≤ s.count f1 := by
  intro s t h
  induction h with
  | nil => exact le_rfl
  | @cons x y s' t' hab htail ih =>
    rcases hab with hab | ⟨hx, hy⟩
    · subst hab
      simp only [List.count_cons]
      omega
    · rw [hx, hy]
      have hne' : ¬(f2 = f1) := fun h' => hne h'.symm
      rw [List.count_cons_self, List.count_cons_of_ne (fun h' => hne h')]
      omega

theorem pairSwap_eq_of_count {f1 f2 : PatchInput} (hne : f1 ≠ f2) :
    ∀ {s t : List PatchInput}, List.Forall₂ (pairSwapRel f1 f2) s t →
      s.count f1 = t.count f1 → s = t := by
  intro s t h
  induction h with
  | nil => intro _; rfl
  | @cons x y s' t' hab htail ih =>
    intro hcount
    rcases hab with hab | ⟨hx, hy⟩
    · subst hab
      simp only [List.count_cons] at hcount
      rw [ih (by omega)]
    · rw [hx] at hcount
      rw [hy] at hcount
      rw [List.count_cons_self, List.count_cons_of_ne (fun h' => hne h')] at hcount
      have := pairSwap_count_le hne htail
      omega

theorem pairSwap_decomp {f1 f2 : PatchInput} (hne : f1 ≠ f2) :
    ∀ {s t : List PatchInput}, List.Forall₂ (pairSwapRel f1 f2) s t →
      s.count f1 = t.count f1 + 1 →
      ∃ P Q, s = P ++ f1 :: Q ∧ t = P ++ f2 :: Q := by
  intro s t h
  induction h with
  | nil => intro hcount; simp at hcount
  | @cons x y s' t' hab htail ih =>
    intro hcount
    rcases hab with hab | ⟨hx, hy⟩
    · subst hab
      simp only [List.count_cons] at hcount
      obtain ⟨P, Q, hs, ht⟩ := ih (by omega)
      exact ⟨x :: P, Q, by rw [hs]; rfl, by rw [ht]; rfl⟩
    · rw [hx] at hcount ⊢
      rw [hy] at hcount ⊢
      rw [List.count_cons_self, List.count_cons_of_ne (fun h' => hne h')] at hcount
      have heq := pairSwap_eq_of_count hne htail (by omega)
      exact ⟨[], s', rfl, by simp [heq]⟩

theorem joinNl_cons_ne_nil {a : String} {rest : List String} (h : rest ≠ []) :
    joinNl (a :: rest) = a ++ "\n" ++ joinNl rest := by
  cases rest with
  | nil => exact absurd rfl h
  | cons r rs => rfl

theorem string_append_right_cancel {a b c : String} (h : a ++ c = b ++ c) : a = b := by
  have hd := congrArg String.data h
  simp only [String.data_append] at hd
  have := List.append_cancel_right hd
  cases a with
  | mk da =>
    cases b with
    | mk db => simp only at this; rw [this]

theorem string_append_left_cancel {a b c : String} (h : a ++ b = a ++ c) : b = c := by
  have hd := congrArg String.data h
  simp only [String.data_append] at hd
  have := List.append_cancel_left hd
  cases b with
  | mk db =>
    cases c with
    | mk dc => simp only at this; rw [this]

/-- Joining with newlines separates: changing one line changes the joined
text, whatever surrounds it. -/
theorem joinNl_sub_ne :
    ∀ (P : List String) {Q : List String} {a b : String}, a ≠ b →
      joinNl (P ++ a :: Q) ≠ joinNl (P ++ b :: Q) := by
  intro P
  induction P with
  | nil =>
    intro Q a b hne h
    simp only [List.nil_append] at h
    cases Q with
    | nil => exact hne h
    | cons q Q' =>
      rw [@joinNl_cons_ne_nil a (q :: Q') (by simp),
        @joinNl_cons_ne_nil b (q :: Q') (by simp)] at h
      exact hne (string_append_right_cancel (string_append_right_cancel h))
  | cons p P' ih =>
    intro Q a b hne h
    simp only [List.cons_append] at h
    rw [@joinNl_cons_ne_nil p (P' ++ a :: Q) (by simp),
      @joinNl_cons_ne_nil p (P' ++ b :: Q) (by simp)] at h
    exact ih hne (string_append_left_cancel h)

theorem extract_empty : extractAddedRemovedLines "" = [] := rfl

theorem canonicalize_ne_of_line_change (pre post : List PatchInput)
    (pth p1 p2 : String) (A B : List String) (l1 l2 : String)
    (h1 : (extractAddedRemovedLines p1).map stripTrailing = A ++ l1 :: B)
    (h2 : (extractAddedRemovedLines p2).map stripTrailing = A ++ l2 :: B)
    (hne : l1 ≠ l2) :
    canonicalizeProductionDiff (pre ++ ⟨pth, some p1⟩ :: post) ≠
      canonicalizeProductionDiff (pre ++ ⟨pth, some p2⟩ :: post) := by
  have hp12 : p1 ≠ p2 := by
    intro h
    subst h
    rw [h1] at h2
    exact hne (by simpa using List.append_cancel_left h2)
  have hf : (⟨pth, some p1⟩ : PatchInput) ≠ ⟨pth, some p2⟩ := by
    simp only [ne_eq, PatchInput.mk.injEq, Option.some.injEq]
    exact fun h' => hp12 h'.2
  have hrefl : ∀ l : List PatchInput,
      List.Forall₂ (pairSwapRel ⟨pth, some p1⟩ ⟨pth, some p2⟩) l l :=
    fun l => List.forall₂_same.2 fun x _ => Or.inl rfl
  have hrel : List.Forall₂ (pairSwapRel ⟨pth, some p1⟩ ⟨pth, some p2⟩)
      (pre ++ ⟨pth, some p1⟩ :: post) (pre ++ ⟨pth, some p2⟩ :: post) :=
    List.rel_append (hrefl pre) (.cons (Or.inr ⟨rfl, rfl⟩) (hrefl post))
  have hsorted := insertionSort_congr
    (fun x y hxy => by
      rcases hxy with hxy | ⟨hx, hy⟩
      · rw [hxy]
      · rw [hx, hy])
    hrel
  have hcount : (List.insertionSort pathLe
        (pre ++ ⟨pth, some p1⟩ :: post)).count ⟨pth, some p1⟩ =
      (List.insertionSort pathLe
        (pre ++ ⟨pth, some p2⟩ :: post)).count ⟨pth, some p1⟩ + 1 := by
    rw [(List.perm_insertionSort pathLe _).count_eq,
      (List.perm_insertionSort pathLe _).count_eq]
    rw [List.count_append, List.count_append, List.count_cons_self,
      List.count_cons_of_ne (fun h' => hf h')]
    omega
  obtain ⟨P, Q, hs, ht⟩ := pairSwap_decomp hf hsorted hcount
  have hp1ne : p1 ≠ "" := by
    intro h
    subst h
    rw [extract_empty] at h1
    simp at h1
  have hp2ne : p2 ≠ "" := by
    intro h
    subst h
    rw [extract_empty] at h2
    simp at h2
  have hsec1 : sectionOf ⟨pth, some p1⟩ = ("file:" ++ pth) :: (A ++ l1 :: B) := by
    unfold sectionOf
    dsimp only
    rw [sectionTail_some, if_neg hp1ne, h1]
  have hsec2 : sectionOf ⟨pth, some p2⟩ = ("file:" ++ pth) :: (A ++ l2 :: B) := by
    unfold sectionOf
    dsimp only
    rw [sectionTail_some, if_neg hp2ne, h2]
  unfold canonicalizeProductionDiff sortByPath
  rw [hs, ht, List.map_append, List.map_cons, List.map_append, List.map_cons,
    List.flatten_append, List.flatten_cons, List.flatten_append, List.flatten_cons,
    hsec1, hsec2]
  have hre : ∀ l : String,
      (P.map sectionOf).flatten ++
          ((("file:" ++ pth) :: (A ++ l :: B)) ++ (Q.map sectionOf).flatten) =
        ((P.map sectionOf).flatten ++ ("file:" ++ pth) :: A) ++
          l :: (B ++ (Q.map sectionOf).flatten) := by
    intro l
    simp [List.append_assoc]
  rw [hre l1, hre l2]
  exact joinNl_sub_ne _ hne

/-! ## Claim C4 -/

/-- C4 (amended): the canonical diff hash is invariant under permutation of
the input file list provided the file paths are pairwise distinct (with
duplicate paths the stable sort preserves the input order of the
duplicates, so permuting them changes the canonical text); it is invariant
under changes that only alter hunk-header (`@@…`) lines; and replacing one
added/removed line of one file so that its stripped content differs changes
the canonical text (hence the SHA-256 hash, up to digest collisions). -/
theorem C4_canonical_hash_stability :
    (∀ l1 l2 : List PatchInput, l1.Perm l2 → (l1.map PatchInput.path).Nodup →
      buildCanonicalDiffHash l1 = buildCanonicalDiffHash l2) ∧
    (∀ l1 l2 : List PatchInput,
      List.Forall₂ (fun f g => f.path = g.path ∧ patchRel f.patch g.patch) l1 l2 →
      buildCanonicalDiffHash l1 = buildCanonicalDiffHash l2) ∧
    (∀ (pre post : List PatchInput) (pth p1 p2 : String) (A B : List String)
      (l1 l2 : String),
      (extractAddedRemovedLines p1).map stripTrailing = A ++ l1 :: B →
      (extractAddedRemovedLines p2).map stripTrailing = A ++ l2 :: B →
      l1 ≠ l2 →
      canonicalizeProductionDiff (pre ++ ⟨pth, some p1⟩ :: post) ≠
        canonicalizeProductionDiff (pre ++ ⟨pth, some p2⟩ :: post)) := by
  refine ⟨?_, ?_, canonicalize_ne_of_line_change⟩
  · intro l1 l2 hp hnd
    unfold buildCanonicalDiffHash
    have : canonicalizeProductionDiff l1 = canonicalizeProductionDiff l2 := by
      unfold canonicalizeProductionDiff
      rw [sortByPath_eq_of_perm hp hnd]
    rw [this]
  · intro l1 l2 h
    unfold buildCanonicalDiffHash
    rw [canonicalize_eq_of_patchRel h]

/-- C4 counterexample (to the claim as stated): with a duplicated path the
canonical text, and with it the hash, is not permutation invariant. -/
theorem C4_perm_counterexample :
    ([⟨"a", some "+x"⟩, ⟨"a", some "+y"⟩] : List PatchInput).Perm
        [⟨"a", some "+y"⟩, ⟨"a", some "+x"⟩] ∧
    buildCanonicalDiffHash [⟨"a", some "+x"⟩, ⟨"a", some "+y"⟩] ≠
      buildCanonicalDiffHash [⟨"a", some "+y"⟩, ⟨"a", some "+x"⟩] := by
  constructor
  · decide
  · intro h
    have := congrArg CanonicalDiff.canonicalText h
    revert this
    decide

/-- C4 witness: the three parts applied at concrete inputs — a two-file
permutation with distinct paths, a hunk-header renumbering, and a one-line
content change. -/
theorem C4_canonical_hash_stability_witness :
    buildCanonicalDiffHash [⟨"b", some "+q"⟩, ⟨"a", some "+p"⟩] =
        buildCanonicalDiffHash [⟨"a", some "+p"⟩, ⟨"b", some "+q"⟩] ∧
    buildCanonicalDiffHash [⟨"a", some "@@ -1,2 +3,4 @@\n+x"⟩] =
        buildCanonicalDiffHash [⟨"a", some "@@ -9 +9 @@\n+x"⟩] ∧
    canonicalizeProductionDiff [⟨"a", some "+x"⟩] ≠
      canonicalizeProductionDiff [⟨"a", some "+y"⟩] := by
  refine ⟨?_, ?_, ?_⟩
  · exact C4_canonical_hash_stability.1 _ _ (by decide) (by decide)
  · refine C4_canonical_hash_stability.2.1 _ _ ?_
    refine .cons ⟨rfl, ?_⟩ .nil
    unfold patchRel
    exact .cons (Or.inr ⟨by decide, by decide⟩) (.cons (Or.inl rfl) .nil)
  · have := C4_canonical_hash_stability.2.2 [] [] "a" "+x" "+y" [] [] "+x" "+y"
      (by decide) (by decide) (by decide)
    simpa using this

end ClawTriage
